import Mathlib

/-
Formal model of the nornir-urd declustering core (src/nornir_urd/decluster.py
and src/nornir_urd/reasenberg.py), together with proofs of the specified
properties.  Magnitudes, coordinates and parsed timestamps are embedded as
exact rationals; the transcendental geodesy and window formulas are embedded
over the reals.
-/

namespace NornirUrd

/-- Event record consumed by the declustering core: `usgs_id`, `event_at`
(ISO-8601 string), `latitude`, `longitude`, `usgs_mag`. -/
structure Event where
  usgs_id : String
  event_at : String
  latitude : ℚ
  longitude : ℚ
  usgs_mag : ℚ
  deriving DecidableEq

/-- Default event used for out-of-range list access (never reached on the
domains the theorems quantify over). -/
def dEvent : Event := ⟨"", "", 0, 0, 0⟩

/-! ## Timestamp parsing

Model of `_parse_event_time` (decluster.py line 93):
`datetime.fromisoformat(event_at.replace("Z", "+00:00"))`, mapped to the
absolute instant it denotes, measured in integer microseconds on a
proleptic-Gregorian axis (Python datetimes have exactly microsecond
resolution).  The stdlib reading is modelled on the documented ISO-8601
profile `YYYY-MM-DD[T ]HH:MM:SS[.f+][+HH:MM|-HH:MM]` (after the `Z`
replacement); an aware offset is required, matching the spec's demand that
times denote absolute instants. -/

/-- Model of Python `str.replace("Z", "+00:00")` on the character list. -/
def replaceZ : List Char → List Char
  | [] => []
  | 'Z' :: rest => '+' :: '0' :: '0' :: ':' :: '0' :: '0' :: replaceZ rest
  | c :: rest => c :: replaceZ rest

/-- Numeric value of a decimal digit character. -/
def dval (c : Char) : ℕ := c.toNat - 48

/-- Read a two-digit decimal number. -/
def read2 (a b : Char) : Option ℕ :=
  if a.isDigit && b.isDigit then some (10 * dval a + dval b) else none

/-- Read a four-digit decimal number. -/
def read4 (a b c d : Char) : Option ℕ :=
  if a.isDigit && b.isDigit && c.isDigit && d.isDigit then
    some (1000 * dval a + 100 * dval b + 10 * dval c + dval d)
  else none

/-- Gregorian leap-year predicate. -/
def isLeapYear (y : ℕ) : Bool := (y % 4 == 0 && y % 100 != 0) || (y % 400 == 0)

/-- Number of days in a month (Gregorian calendar). -/
def daysInMonth (y m : ℕ) : ℕ :=
  if m = 2 then (if isLeapYear y then 29 else 28)
  else if m = 4 ∨ m = 6 ∨ m = 9 ∨ m = 11 then 30 else 31

/-- Proleptic-Gregorian day count (days-from-civil algorithm, valid for
year at least 1; the epoch constant is irrelevant since only differences
and order of instants are consumed by the algorithms). -/
def dayNumber (y m d : ℕ) : ℕ :=
  let ym := if m ≤ 2 then y - 1 else y
  let era := ym / 400
  let yoe := ym % 400
  let mp := (m + 9) % 12
  let doy := (153 * mp + 2) / 5 + (d - 1)
  let doe := yoe * 365 + yoe / 4 - yoe / 100 + doy
  era * 146097 + doe

/-- Value of a list of digit characters as a natural number. -/
def digitsToNat (ds : List Char) : ℕ := ds.foldl (fun a c => 10 * a + dval c) 0

/-- Fractional-second value in microseconds: Python truncates beyond six
digits. -/
def fracMicro (ds : List Char) : ℕ :=
  let ds6 := ds.take 6
  digitsToNat ds6 * 10 ^ (6 - ds6.length)

/-- Parse an optional fractional-second part, returning its microsecond
value and the rest of the input.  A decimal point must be followed by at
least one digit. -/
def parseFrac : List Char → Option (ℕ × List Char)
  | '.' :: rest =>
    let ds := rest.takeWhile Char.isDigit
    if ds.isEmpty then none else some (fracMicro ds, rest.drop ds.length)
  | cs => some (0, cs)

/-- Parse a mandatory UTC-offset suffix, in microseconds. -/
def parseOffset : List Char → Option ℤ
  | ['+', a, b, ':', c, d] => do
    let hh ← read2 a b
    let mm ← read2 c d
    if hh ≤ 23 ∧ mm ≤ 59 then some (((hh * 3600 + mm * 60) * 1000000 : ℕ)) else none
  | ['-', a, b, ':', c, d] => do
    let hh ← read2 a b
    let mm ← read2 c d
    if hh ≤ 23 ∧ mm ≤ 59 then some (-((hh * 3600 + mm * 60) * 1000000 : ℕ) : ℤ) else none
  | _ => none

/-- Parse the date-time body of an ISO-8601 timestamp, to microseconds. -/
def parseCore : List Char → Option ℤ
  | y1 :: y2 :: y3 :: y4 :: '-' :: mo1 :: mo2 :: '-' :: d1 :: d2 :: sep ::
      h1 :: h2 :: ':' :: mi1 :: mi2 :: ':' :: s1 :: s2 :: rest => do
    let y ← read4 y1 y2 y3 y4
    let mo ← read2 mo1 mo2
    let d ← read2 d1 d2
    let h ← read2 h1 h2
    let mi ← read2 mi1 mi2
    let s ← read2 s1 s2
    if (sep = 'T' ∨ sep = ' ') ∧ 1 ≤ y ∧ 1 ≤ mo ∧ mo ≤ 12 ∧ 1 ≤ d ∧
        d ≤ daysInMonth y mo ∧ h ≤ 23 ∧ mi ≤ 59 ∧ s ≤ 59 then
      let pf ← parseFrac rest
      let off ← parseOffset pf.2
      some ((((dayNumber y mo d * 86400 + h * 3600 + mi * 60 + s) * 1000000
        + pf.1 : ℕ) : ℤ) - off)
    else none
  | _ => none

/-- Model of `_parse_event_time`: the instant denoted by an event_at string,
in microseconds. -/
def parseTS (s : String) : Option ℤ := parseCore (replaceZ s.data)

/-- Total version of `parseTS` (the algorithms only ever consume it on
catalogs whose timestamps parse). -/
def parseTSI (s : String) : ℤ := (parseTS s).getD 0

/-- Catalog whose every timestamp parses (Python raises otherwise before any
classification work happens). -/
def WFCat (events : List Event) : Prop :=
  ∀ e ∈ events, (parseTS e.event_at).isSome

instance : DecidablePred WFCat := fun events =>
  inferInstanceAs (Decidable (∀ e ∈ events, (parseTS e.event_at).isSome = true))

/-! ## Accessors -/

/-- Event at a catalog position. -/
def evAt (l : List Event) (i : ℕ) : Event := l.getD i dEvent

/-- Magnitude at a catalog position. -/
def magAt (l : List Event) (i : ℕ) : ℚ := (evAt l i).usgs_mag

/-- Parsed event time at a catalog position (the `times[i]` array of the
source), in microseconds. -/
def timeAt (l : List Event) (i : ℕ) : ℤ := parseTSI (evAt l i).event_at

/-- Signed elapsed seconds from position `i` to position `j`, as computed by
`(times[j] - times[i]).total_seconds()`. -/
def dtSecs (l : List Event) (i j : ℕ) : ℚ := ((timeAt l j - timeAt l i : ℤ) : ℚ) / 1000000

/-- Absolute elapsed seconds between two positions. -/
def dtAbsSecs (l : List Event) (i j : ℕ) : ℚ := |dtSecs l i j|

/-! ## Stable sorting of index lists

Python `sorted(range(n), key=k)` is a stable sort: it orders positions by
key, breaking key ties by original position.  That is exactly sorting by
the linear order "key strictly less, or key equal and position not larger",
which has a unique sorted arrangement. -/

/-- Stable-sort order on positions induced by a key function: position `i`
comes no later than `j` when its key is smaller, or the keys are equal and
`i ≤ j`. -/
def keyIdxLe {κ : Type} [LinearOrder κ] (key : ℕ → κ) (i j : ℕ) : Prop :=
  key i < key j ∨ (key i = key j ∧ i ≤ j)

instance keyIdxLeDecidable {κ : Type} [LinearOrder κ] (key : ℕ → κ) :
    DecidableRel (keyIdxLe key) := fun _ _ =>
  inferInstanceAs (Decidable (_ ∨ _))

instance keyIdxLeTotal {κ : Type} [LinearOrder κ] (key : ℕ → κ) :
    IsTotal ℕ (keyIdxLe key) := by
  constructor
  intro i j
  rcases lt_trichotomy (key i) (key j) with h | h | h
  · exact Or.inl (Or.inl h)
  · rcases Nat.le_total i j with hij | hij
    · exact Or.inl (Or.inr ⟨h, hij⟩)
    · exact Or.inr (Or.inr ⟨h.symm, hij⟩)
  · exact Or.inr (Or.inl h)

instance keyIdxLeTrans {κ : Type} [LinearOrder κ] (key : ℕ → κ) :
    IsTrans ℕ (keyIdxLe key) := by
  constructor
  intro i j k hij hjk
  rcases hij with h1 | ⟨h1, h1i⟩
  · rcases hjk with h2 | ⟨h2, _⟩
    · exact Or.inl (h1.trans h2)
    · exact Or.inl (h2 ▸ h1)
  · rcases hjk with h2 | ⟨h2, h2i⟩
    · exact Or.inl (h1 ▸ h2)
    · exact Or.inr ⟨h1.trans h2, h1i.trans h2i⟩

theorem keyIdxLe_antisymm {κ : Type} [LinearOrder κ] (key : ℕ → κ) {i j : ℕ}
    (h1 : keyIdxLe key i j) (h2 : keyIdxLe key j i) : i = j := by
  rcases h1 with h1 | ⟨h1, h1i⟩
  · rcases h2 with h2 | ⟨h2, _⟩
    · exact absurd (h1.trans h2) (lt_irrefl _)
    · exact absurd h1 (h2 ▸ lt_irrefl _)
  · rcases h2 with h2 | ⟨_, h2i⟩
    · exact absurd h2 (h1 ▸ lt_irrefl _)
    · exact Nat.le_antisymm h1i h2i

/-- Stable sort of the positions `0, …, n-1` by a key. -/
def sortIdx {κ : Type} [LinearOrder κ] (key : ℕ → κ) (n : ℕ) : List ℕ :=
  List.insertionSort (keyIdxLe key) (List.range n)

theorem sortIdx_perm {κ : Type} [LinearOrder κ] (key : ℕ → κ) (n : ℕ) :
    (sortIdx key n).Perm (List.range n) :=
  List.perm_insertionSort _ _

theorem sortIdx_sorted {κ : Type} [LinearOrder κ] (key : ℕ → κ) (n : ℕ) :
    List.Sorted (keyIdxLe key) (sortIdx key n) :=
  List.sorted_insertionSort _ _

theorem sortIdx_mem {κ : Type} [LinearOrder κ] (key : ℕ → κ) (n i : ℕ) :
    i ∈ sortIdx key n ↔ i < n := by
  rw [(sortIdx_perm key n).mem_iff, List.mem_range]

theorem sortIdx_nodup {κ : Type} [LinearOrder κ] (key : ℕ → κ) (n : ℕ) :
    (sortIdx key n).Nodup :=
  (sortIdx_perm key n).nodup_iff.mpr (List.nodup_range n)

/-! ## Window models (decluster.py) -/

/-- Discrete lookup table from Gardner-Knopoff (1974), Table 1: rows of
(minimum magnitude, spatial window km, temporal window days), descending. -/
def GK_TABLE : List (ℚ × ℚ × ℚ) :=
  [(7.0, 70.0, 985.0),
   (6.5, 61.0, 960.0),
   (6.0, 54.0, 915.0),
   (5.5, 47.0, 790.0),
   (5.0, 40.0, 510.0),
   (4.5, 35.0, 290.0),
   (4.0, 30.0, 155.0),
   (3.5, 26.0, 83.0),
   (3.0, 22.5, 42.0),
   (2.5, 19.5, 22.0)]

/-- First table row whose threshold does not exceed the magnitude; the
M=2.5 row is the floor. -/
def gkTableLookup : List (ℚ × ℚ × ℚ) → ℚ → ℚ × ℚ
  | [], _ => (19.5, 22.0)
  | (thr, dist_km, time_days) :: rest, m =>
    if thr ≤ m then (dist_km, time_days) else gkTableLookup rest m

/-- Model of `gk_window_table`: discrete G-K (1974) windows. -/
def gk_window_table (magnitude : ℚ) : ℚ × ℚ := gkTableLookup GK_TABLE magnitude

/-- Model of `gk_window`: continuous G-K (1974) windows
(distance_km, time_days). -/
noncomputable def gk_window (magnitude : ℚ) : ℝ × ℝ :=
  let distance_km : ℝ := (10 : ℝ) ^ ((0.1238 * magnitude + 0.983 : ℚ) : ℝ)
  let time_days : ℝ :=
    if (6.5 : ℚ) ≤ magnitude then (10 : ℝ) ^ ((0.032 * magnitude + 2.7389 : ℚ) : ℝ)
    else (10 : ℝ) ^ ((0.5409 * magnitude - 0.547 : ℚ) : ℝ)
  (distance_km, time_days)

/-- Model of `gk_window_scaled`: both G-K window dimensions multiplied by
the scale factor. -/
noncomputable def gk_window_scaled (magnitude : ℚ) (scale : ℚ) : ℝ × ℝ :=
  let w := gk_window magnitude
  (w.1 * scale, w.2 * scale)

/-! ## Geodesy (decluster.py) -/

/-- Earth radius used by the haversine distance. -/
def EARTH_RADIUS_KM : ℝ := 6371

/-- Degrees to radians, as in `math.radians`. -/
noncomputable def radiansQ (x : ℚ) : ℝ := (x : ℝ) * Real.pi / 180

/-- Model of `haversine_km`: great-circle distance in km between two points. -/
noncomputable def haversine_km (lat1 lon1 lat2 lon2 : ℚ) : ℝ :=
  let lat1r := radiansQ lat1
  let lon1r := radiansQ lon1
  let lat2r := radiansQ lat2
  let lon2r := radiansQ lon2
  let dlat := lat2r - lat1r
  let dlon := lon2r - lon1r
  let a := Real.sin (dlat / 2) ^ 2 +
    Real.cos lat1r * Real.cos lat2r * Real.sin (dlon / 2) ^ 2
  2 * EARTH_RADIUS_KM * Real.arcsin (Real.sqrt a)

/-- Great-circle distance between the events at two catalog positions. -/
noncomputable def havAt (l : List Event) (i j : ℕ) : ℝ :=
  haversine_km (evAt l i).latitude (evAt l i).longitude
    (evAt l j).latitude (evAt l j).longitude

/-! ## Gardner-Knopoff core (`_gk_decluster_core`) -/

/-- Candidate order of `_gk_decluster_core`:
`sorted(range(n), key=mag, reverse=True)` — positions by descending
magnitude, original order breaking ties. -/
def indicesByMag (l : List Event) : List ℕ :=
  sortIdx (fun i => OrderDual.toDual (magAt l i)) l.length

/-- One inner-loop iteration of the G-K core for candidate `idx` at inner
position `j`, mirroring the chain of `continue` guards of the source. -/
noncomputable def gkInnerStep (wfn : ℚ → ℝ × ℝ) (l : List Event) (idx : ℕ)
    (dep : List Bool) (j : ℕ) : List Bool :=
  if j = idx ∨ dep.getD j false then dep
  else if magAt l idx < magAt l j then dep
  else if ((wfn (magAt l idx)).2 * 86400 : ℝ) < (dtAbsSecs l idx j : ℝ) then dep
  else if (wfn (magAt l idx)).1 < havAt l idx j then dep
  else dep.set j true

/-- Inner loop of the G-K core: scan all positions for candidate `idx`. -/
noncomputable def gkInner (wfn : ℚ → ℝ × ℝ) (l : List Event) (idx : ℕ)
    (dep : List Bool) : List Bool :=
  (List.range l.length).foldl (gkInnerStep wfn l idx) dep

/-- Outer-loop body: an already dependent candidate is skipped. -/
noncomputable def gkCandidate (wfn : ℚ → ℝ × ℝ) (l : List Event)
    (dep : List Bool) (idx : ℕ) : List Bool :=
  if dep.getD idx false then dep else gkInner wfn l idx dep

/-- Final `is_dependent` array of the G-K core. -/
noncomputable def gkDepFlags (wfn : ℚ → ℝ × ℝ) (l : List Event) : List Bool :=
  (indicesByMag l).foldl (gkCandidate wfn l) (List.replicate l.length false)

/-- Model of `_gk_decluster_core`: (mainshocks, aftershocks). -/
noncomputable def gkDeclusterCore (wfn : ℚ → ℝ × ℝ) (l : List Event) :
    List Event × List Event :=
  if l.isEmpty then ([], [])
  else
    ((l.enum.filter (fun q => !((gkDepFlags wfn l).getD q.1 false))).map Prod.snd,
     (l.enum.filter (fun q => (gkDepFlags wfn l).getD q.1 false)).map Prod.snd)

/-- Model of `decluster_gardner_knopoff`: continuous-formula windows. -/
noncomputable def decluster_gardner_knopoff (events : List Event) :
    List Event × List Event :=
  gkDeclusterCore gk_window events

/-- Model of `decluster_gardner_knopoff_table`: discrete-table windows. -/
noncomputable def decluster_gardner_knopoff_table (events : List Event) :
    List Event × List Event :=
  gkDeclusterCore
    (fun m => (((gk_window_table m).1 : ℝ), ((gk_window_table m).2 : ℝ))) events

/-- Default fixed radius of `decluster_a1b_fixed` (83.2 km). -/
def a1bRadiusDefault : ℚ := 83.2

/-- Default fixed window of `decluster_a1b_fixed` (95.6 days). -/
def a1bWindowDefault : ℚ := 95.6

/-- Model of `decluster_a1b_fixed`: constant windows for all magnitudes. -/
noncomputable def decluster_a1b_fixed (events : List Event)
    (radius_km window_days : ℚ) : List Event × List Event :=
  gkDeclusterCore (fun _ => ((radius_km : ℝ), (window_days : ℝ))) events

/-! ## Parent-attributing variant (`decluster_with_parents`) -/

/-- Mutable side state of `decluster_with_parents`: the `is_dependent`,
`parent_idx` and `parent_dt_abs` arrays (the `float("inf")` initial value of
`parent_dt_abs` is the top element). -/
structure GKPState where
  dep : List Bool
  parent : List (Option ℕ)
  pdt : List (WithTop ℚ)
  deriving DecidableEq

/-- Initial side state for `n` events. -/
def gkpInit (n : ℕ) : GKPState :=
  ⟨List.replicate n false, List.replicate n none, List.replicate n ⊤⟩

/-- One inner-loop iteration of `decluster_with_parents` for candidate
`idx` at inner position `j`: unlike the plain core, already dependent
events are re-examined, and the temporally closer parent wins. -/
noncomputable def gkpInnerStep (scale : ℚ) (l : List Event) (idx : ℕ)
    (st : GKPState) (j : ℕ) : GKPState :=
  if j = idx then st
  else if magAt l idx < magAt l j then st
  else if ((gk_window_scaled (magAt l idx) scale).2 * 86400 : ℝ) <
      (dtAbsSecs l idx j : ℝ) then st
  else if (gk_window_scaled (magAt l idx) scale).1 < havAt l idx j then st
  else if st.dep.getD j false = false then
    ⟨st.dep.set j true, st.parent.set j (some idx),
      st.pdt.set j (dtAbsSecs l idx j : WithTop ℚ)⟩
  else if (dtAbsSecs l idx j : WithTop ℚ) < st.pdt.getD j ⊤ then
    ⟨st.dep, st.parent.set j (some idx), st.pdt.set j (dtAbsSecs l idx j : WithTop ℚ)⟩
  else st

/-- Inner loop of `decluster_with_parents` for candidate `idx`. -/
noncomputable def gkpInner (scale : ℚ) (l : List Event) (idx : ℕ)
    (st : GKPState) : GKPState :=
  (List.range l.length).foldl (gkpInnerStep scale l idx) st

/-- Outer-loop body of `decluster_with_parents`. -/
noncomputable def gkpCandidate (scale : ℚ) (l : List Event) (st : GKPState)
    (idx : ℕ) : GKPState :=
  if st.dep.getD idx false then st else gkpInner scale l idx st

/-- Final side state of `decluster_with_parents`. -/
noncomputable def gkpFinal (scale : ℚ) (l : List Event) : GKPState :=
  (indicesByMag l).foldl (gkpCandidate scale l) (gkpInit l.length)

/-- Aftershock output record of `decluster_with_parents`: the event dict
extended with the four attribution columns. -/
structure Aftershock where
  event : Event
  parent_id : String
  parent_magnitude : ℚ
  delta_t_sec : ℚ
  delta_dist_km : ℝ

/-- Attribution record built for dependent position `i`.  A dependent event
always carries a parent index (the parent-coverage theorems below); the
default `0` is never reached. -/
noncomputable def gkpAftershockAt (l : List Event) (st : GKPState) (i : ℕ) :
    Aftershock :=
  let p := (st.parent.getD i none).getD 0
  ⟨evAt l i, (evAt l p).usgs_id, magAt l p, dtSecs l p i, havAt l p i⟩

/-- Model of `decluster_with_parents`. -/
noncomputable def decluster_with_parents (events : List Event)
    (window_scale : ℚ) : List Event × List Aftershock :=
  if events.isEmpty then ([], [])
  else
    ((events.enum.filter
        (fun q => !((gkpFinal window_scale events).dep.getD q.1 false))).map Prod.snd,
     (events.enum.filter
        (fun q => (gkpFinal window_scale events).dep.getD q.1 false)).map
        (fun q => gkpAftershockAt events (gkpFinal window_scale events) q.1))

/-! ## Reasenberg engine (reasenberg.py) -/

/-- Model of `_r_int`: interaction radius (km) for a cluster of maximum
magnitude `mmax`. -/
noncomputable def r_int (mmax rfact : ℚ) : ℝ :=
  (rfact : ℝ) * (10 : ℝ) ^ ((0.11 * mmax + 0.024 : ℚ) : ℝ)

/-- Model of `_tau`: adaptive lookback window (days) clamped to
[tau_min, tau_max], with the overflow guard for exponents above 300. -/
noncomputable def tauWin (mmax xmeff p tau_min tau_max b : ℚ) : ℝ :=
  let exponent := b * (mmax - xmeff)
  if (300 : ℚ) < exponent then (tau_min : ℝ)
  else
    max (tau_min : ℝ) (min (tau_max : ℝ)
      (-Real.log (1 - (p : ℝ)) / (10 : ℝ) ^ ((exponent : ℚ) : ℝ)))

/-- Cluster state of the Reasenberg engine: current maximum magnitude, the
position (in the sorted catalog) of the mainshock candidate, of the most
recently admitted member, and the member set. -/
structure Cluster where
  mmax : ℚ
  main : ℕ
  last : ℕ
  members : Finset ℕ
  deriving DecidableEq

/-- Default cluster for out-of-range list access (never reached). -/
def dCluster : Cluster := ⟨0, 0, 0, ∅⟩

/-- Traversal order of `decluster_reasenberg`:
`sorted(range(n), key=lambda i: events[i]["event_at"])` — positions by the
RAW `event_at` string, original order breaking ties. -/
def rbOrder (events : List Event) : List ℕ :=
  sortIdx (fun i => (evAt events i).event_at.data) events.length

/-- Chronologically sorted catalog (`sorted_evts` of the source). -/
def rbSorted (events : List Event) : List Event :=
  (rbOrder events).map (evAt events)

/-- One step of the best-cluster scan for event `i`: a cluster is skipped
when closed (elapsed days beyond its tau) or when `i` is beyond the
interaction radius from its mainshock candidate; among eligible clusters
the one with the smallest elapsed time wins, the earliest listed winning
ties. -/
noncomputable def rbBestStep (s : List Event) (rfact tau_min tau_max p xmeff : ℚ)
    (i : ℕ) (best : Option (ℕ × ℚ)) (cc : ℕ × Cluster) : Option (ℕ × ℚ) :=
  let dt_days : ℚ := dtSecs s cc.2.last i / 86400
  if (tauWin cc.2.mmax xmeff p tau_min tau_max 1 : ℝ) < (dt_days : ℝ) then best
  else if r_int cc.2.mmax rfact < havAt s i cc.2.main then best
  else
    match best with
    | none => some (cc.1, dt_days)
    | some b => if dt_days < b.2 then some (cc.1, dt_days) else best

/-- Best eligible open cluster for event `i`, if any. -/
noncomputable def rbFindBest (s : List Event) (rfact tau_min tau_max p xmeff : ℚ)
    (clusters : List Cluster) (i : ℕ) : Option (ℕ × ℚ) :=
  clusters.enum.foldl (rbBestStep s rfact tau_min tau_max p xmeff i) none

/-- Admission of event `i`: join the best eligible cluster (updating
`mmax`/mainshock candidate on a strict magnitude improvement and always the
last-member pointer) or start a new singleton cluster. -/
noncomputable def rbStep (s : List Event) (rfact tau_min tau_max p xmeff : ℚ)
    (clusters : List Cluster) (i : ℕ) : List Cluster :=
  match rbFindBest s rfact tau_min tau_max p xmeff clusters i with
  | some b =>
    let c := clusters.getD b.1 dCluster
    let c1 : Cluster :=
      if c.mmax < magAt s i then ⟨magAt s i, i, i, insert i c.members⟩
      else ⟨c.mmax, c.main, i, insert i c.members⟩
    clusters.set b.1 c1
  | none => clusters ++ [⟨magAt s i, i, i, {i}⟩]

/-- Final cluster list of `decluster_reasenberg`. -/
noncomputable def rbClusters (events : List Event)
    (rfact tau_min tau_max p xmeff : ℚ) : List Cluster :=
  (List.range (rbSorted events).length).foldl
    (rbStep (rbSorted events) rfact tau_min tau_max p xmeff) []

/-- Classification pass for one cluster: in a multi-member cluster every
member other than the mainshock candidate is marked dependent. -/
def rbDepUpdate (c : Cluster) (dep : List Bool) : List Bool :=
  if c.members.card = 1 then dep
  else dep.mapIdx (fun si b => if si ∈ c.members ∧ si ≠ c.main then true else b)

/-- Final `is_dependent` array of the Reasenberg engine. -/
def rbDepFlags (n : ℕ) (clusters : List Cluster) : List Bool :=
  clusters.foldl (fun dep c => rbDepUpdate c dep) (List.replicate n false)

/-- Model of `decluster_reasenberg`. -/
noncomputable def decluster_reasenberg (events : List Event)
    (rfact tau_min tau_max p xmeff : ℚ) : List Event × List Event :=
  if events.isEmpty then ([], [])
  else
    ((rbSorted events).enum.filter (fun q =>
        !((rbDepFlags (rbSorted events).length
            (rbClusters events rfact tau_min tau_max p xmeff)).getD q.1 false))
      |>.map Prod.snd,
     (rbSorted events).enum.filter (fun q =>
        (rbDepFlags (rbSorted events).length
            (rbClusters events rfact tau_min tau_max p xmeff)).getD q.1 false)
      |>.map Prod.snd)

/-- Default Reasenberg tunables (rfact, tau_min, tau_max, p, xmeff). -/
def rbDefaults : ℚ × ℚ × ℚ × ℚ × ℚ := (10, 1, 10, 0.95, 1.5)

/-! ## Generic list and fold lemmas -/

theorem getD_set_ne {α : Type} (l : List α) {i j : ℕ} (a d : α) (h : i ≠ j) :
    (l.set i a).getD j d = l.getD j d := by
  rw [List.getD_eq_getElem?_getD, List.getD_eq_getElem?_getD, List.getElem?_set_ne h]

theorem getD_set_self {α : Type} (l : List α) {j : ℕ} (a d : α)
    (h : j < l.length) : (l.set j a).getD j d = a := by
  rw [List.getD_eq_getElem?_getD, List.getElem?_set_self h]
  rfl

theorem getD_replicate_lt {α : Type} {n j : ℕ} (a d : α) (h : j < n) :
    (List.replicate n a).getD j d = a := by
  rw [List.getD_eq_getElem?_getD, List.getElem?_replicate, if_pos h]
  rfl

/-- Slot lemma for a fold whose steps touch disjoint slots: a fold over a
list avoiding `j` leaves the `j`-projection unchanged. -/
theorem foldl_slot_of_not_mem {σ β : Type} (step : σ → ℕ → σ) (proj : σ → β)
    (j : ℕ) (hskip : ∀ st k, k ≠ j → proj (step st k) = proj st) :
    ∀ (L : List ℕ), j ∉ L → ∀ st, proj (L.foldl step st) = proj st := by
  intro L
  induction L with
  | nil => intro _ st; rfl
  | cons a L ih =>
    intro hj st
    rw [List.foldl_cons, ih (fun h => hj (List.mem_cons_of_mem a h)),
      hskip st a (fun h => hj (h ▸ List.mem_cons_self a L))]

/-- Slot lemma for a fold whose steps touch disjoint slots: over a
duplicate-free list containing `j`, the `j`-projection of the result is the
`j`-projection of the single `j` step applied to the initial state, provided
the `j` step reads only slot `j`. -/
theorem foldl_slot {σ β : Type} (step : σ → ℕ → σ) (proj : σ → β) (j : ℕ)
    (hskip : ∀ st k, k ≠ j → proj (step st k) = proj st)
    (hloc : ∀ st st2, proj st = proj st2 → proj (step st j) = proj (step st2 j)) :
    ∀ (L : List ℕ), L.Nodup → j ∈ L → ∀ st,
      proj (L.foldl step st) = proj (step st j) := by
  intro L
  induction L with
  | nil => intro _ h; exact absurd h (List.not_mem_nil j)
  | cons a L ih =>
    intro hnd hj st
    rcases List.mem_cons.mp hj with rfl | hjL
    · rw [List.foldl_cons,
        foldl_slot_of_not_mem step proj j hskip L (List.nodup_cons.mp hnd).1]
    · have ha : a ≠ j := fun h => (List.nodup_cons.mp hnd).1 (h ▸ hjL)
      rw [List.foldl_cons, ih (List.nodup_cons.mp hnd).2 hjL]
      exact hloc _ _ (hskip st a (fun h => ha h))

/-- Permutation form of the two-way split of a catalog along a Boolean
position predicate (the shape of every (mainshocks, aftershocks) output). -/
theorem enum_filter_partition_perm {α : Type} (l : List α) (p : ℕ → Bool) :
    (((l.enum.filter (fun q => !(p q.1))).map Prod.snd) ++
      ((l.enum.filter (fun q => p q.1)).map Prod.snd)).Perm l := by
  have h1 : (l.enum.filter (fun q => p q.1) ++
      l.enum.filter (fun q => !(p q.1))).Perm l.enum :=
    List.filter_append_perm (fun q => p q.1) l.enum
  have h2 : (l.enum.filter (fun q => !(p q.1)) ++
      l.enum.filter (fun q => p q.1)).Perm l.enum :=
    List.Perm.trans List.perm_append_comm h1
  have h3 := h2.map Prod.snd
  rw [List.map_append] at h3
  rw [List.enum_map_snd] at h3
  exact h3

/-- Members of `l.enum` are position-value pairs of `l`. -/
theorem mem_enum_evAt (l : List Event) {q : ℕ × Event} (hq : q ∈ l.enum) :
    q.1 < l.length ∧ evAt l q.1 = q.2 := by
  rcases List.mem_iff_getElem.mp hq with ⟨k, hk, hget⟩
  have hk2 : k < l.length := by simpa [List.enum_length] using hk
  rw [List.getElem_enum] at hget
  refine ⟨by rw [← hget]; exact hk2, ?_⟩
  rw [← hget]
  simp only [evAt, List.getD_eq_getElem?_getD, List.getElem?_eq_getElem hk2]
  rfl

/-- Position-indexed read-back of a catalog. -/
theorem map_evAt_range (l : List Event) :
    (List.range l.length).map (evAt l) = l := by
  apply List.ext_getElem
  · simp
  · intro i h1 h2
    simp only [List.getElem_map, List.getElem_range, evAt,
      List.getD_eq_getElem?_getD, List.getElem?_eq_getElem h2]
    rfl

/-! ## Partition lemmas -/

theorem gkDeclusterCore_partition (wfn : ℚ → ℝ × ℝ) (l : List Event) :
    ((gkDeclusterCore wfn l).1 ++ (gkDeclusterCore wfn l).2).Perm l := by
  cases l with
  | nil => rfl
  | cons a t =>
    unfold gkDeclusterCore
    simp only [List.isEmpty_cons, Bool.false_eq_true, if_false]
    exact enum_filter_partition_perm (a :: t)
      (fun i => (gkDepFlags wfn (a :: t)).getD i false)

/-- Chronologically sorted catalog is a permutation of the input catalog. -/
theorem rbSorted_perm (events : List Event) :
    (rbSorted events).Perm events := by
  unfold rbSorted rbOrder
  exact ((sortIdx_perm _ _).map (evAt events)).trans
    (by rw [map_evAt_range])

theorem decluster_reasenberg_partition (events : List Event)
    (rfact tau_min tau_max p xmeff : ℚ) :
    ((decluster_reasenberg events rfact tau_min tau_max p xmeff).1 ++
      (decluster_reasenberg events rfact tau_min tau_max p xmeff).2).Perm
      events := by
  cases hnil : events with
  | nil => rfl
  | cons a t =>
    unfold decluster_reasenberg
    simp only [hnil, List.isEmpty_cons, Bool.false_eq_true, if_false]
    rw [← hnil]
    exact (enum_filter_partition_perm (rbSorted events)
      (fun i => (rbDepFlags (rbSorted events).length
        (rbClusters events rfact tau_min tau_max p xmeff)).getD i false)).trans
      (rbSorted_perm events)

theorem decluster_with_parents_partition (events : List Event)
    (window_scale : ℚ) :
    ((decluster_with_parents events window_scale).1 ++
      ((decluster_with_parents events window_scale).2).map
        Aftershock.event).Perm events := by
  cases hnil : events with
  | nil => rfl
  | cons a t =>
    unfold decluster_with_parents
    simp only [hnil, List.isEmpty_cons, Bool.false_eq_true, if_false]
    rw [← hnil]
    rw [List.map_map]
    have hmap : List.map (Aftershock.event ∘ fun q =>
        gkpAftershockAt events (gkpFinal window_scale events) q.1)
        (events.enum.filter
          (fun q => (gkpFinal window_scale events).dep.getD q.1 false)) =
        List.map Prod.snd
        (events.enum.filter
          (fun q => (gkpFinal window_scale events).dep.getD q.1 false)) := by
      apply List.map_congr_left
      intro q hq
      have hq2 := mem_enum_evAt events (List.mem_filter.mp hq).1
      simpa [gkpAftershockAt] using hq2.2
    rw [hmap]
    exact enum_filter_partition_perm events
      (fun i => (gkpFinal window_scale events).dep.getD i false)

end NornirUrd

namespace NornirUrd

/-! ## Demo catalog used by witnesses -/

/-- Demo mainshock (M7.0, Honshu region). -/
def demoEv1 : Event := ⟨"main", "2020-06-01T00:00:00Z", 35, 139, 7⟩

/-- Demo smaller nearby event six hours later. -/
def demoEv2 : Event := ⟨"after", "2020-06-01T06:00:00Z", 35.1, 139.1, 5.5⟩

/-- Two-event demo catalog. -/
def demoCat : List Event := [demoEv1, demoEv2]

/-- C1: every one of the five declustering entry points returns a total
partition of the catalog: the concatenation of mainshocks and aftershocks is
a permutation of the input (each event record, and hence each identifier,
appears exactly once across the two outputs) and the output sizes add up to
the catalog size. -/
theorem claim_C1 (events : List Event) (hwf : WFCat events)
    (radius_km window_days window_scale rfact tau_min tau_max p xmeff : ℚ) :
    (((decluster_gardner_knopoff events).1 ++
        (decluster_gardner_knopoff events).2).Perm events ∧
      (decluster_gardner_knopoff events).1.length +
        (decluster_gardner_knopoff events).2.length = events.length) ∧
    (((decluster_gardner_knopoff_table events).1 ++
        (decluster_gardner_knopoff_table events).2).Perm events ∧
      (decluster_gardner_knopoff_table events).1.length +
        (decluster_gardner_knopoff_table events).2.length = events.length) ∧
    (((decluster_a1b_fixed events radius_km window_days).1 ++
        (decluster_a1b_fixed events radius_km window_days).2).Perm events ∧
      (decluster_a1b_fixed events radius_km window_days).1.length +
        (decluster_a1b_fixed events radius_km window_days).2.length =
        events.length) ∧
    (((decluster_with_parents events window_scale).1 ++
        ((decluster_with_parents events window_scale).2).map
          Aftershock.event).Perm events ∧
      (decluster_with_parents events window_scale).1.length +
        (decluster_with_parents events window_scale).2.length =
        events.length) ∧
    (((decluster_reasenberg events rfact tau_min tau_max p xmeff).1 ++
        (decluster_reasenberg events rfact tau_min tau_max p xmeff).2).Perm
        events ∧
      (decluster_reasenberg events rfact tau_min tau_max p xmeff).1.length +
        (decluster_reasenberg events rfact tau_min tau_max p xmeff).2.length =
        events.length) := by
  refine ⟨⟨gkDeclusterCore_partition _ _, ?_⟩,
    ⟨gkDeclusterCore_partition _ _, ?_⟩,
    ⟨gkDeclusterCore_partition _ _, ?_⟩,
    ⟨decluster_with_parents_partition _ _, ?_⟩,
    ⟨decluster_reasenberg_partition _ _ _ _ _ _, ?_⟩⟩
  · simpa using (gkDeclusterCore_partition gk_window events).length_eq
  · simpa using (gkDeclusterCore_partition _ events).length_eq
  · simpa using (gkDeclusterCore_partition _ events).length_eq
  · simpa using (decluster_with_parents_partition events window_scale).length_eq
  · simpa using
      (decluster_reasenberg_partition events rfact tau_min tau_max p xmeff).length_eq

/-- C1 witness: the partition property instantiated on a concrete two-event
catalog, with the well-formedness hypothesis discharged by computation. -/
theorem claim_C1_witness :
    WFCat demoCat ∧
    (((decluster_gardner_knopoff demoCat).1 ++
        (decluster_gardner_knopoff demoCat).2).Perm demoCat ∧
      (decluster_gardner_knopoff demoCat).1.length +
        (decluster_gardner_knopoff demoCat).2.length = demoCat.length) :=
  ⟨by decide, (claim_C1 demoCat (by decide) 83.2 95.6 1 10 1 10 0.95 1.5).1⟩

end NornirUrd

namespace NornirUrd

/-- C5: the continuous G-K window returns radius 10^(0.1238 M + 0.983) for
every magnitude, time 10^(0.032 M + 2.7389) for M at least 6.5 and
10^(0.5409 M - 0.547) below, and the time window is discontinuous at 6.5:
a magnitude just below 6.5 (6.49) yields a strictly larger time window than
the value at exactly 6.5. -/
theorem claim_C5 :
    (∀ M : ℚ, (gk_window M).1 = (10 : ℝ) ^ (0.1238 * (M : ℝ) + 0.983) ∧
      (gk_window M).2 = (if (6.5 : ℚ) ≤ M then
        (10 : ℝ) ^ (0.032 * (M : ℝ) + 2.7389)
      else (10 : ℝ) ^ (0.5409 * (M : ℝ) - 0.547))) ∧
    (∃ M : ℚ, M < 6.5 ∧ (gk_window 6.5).2 < (gk_window M).2) := by
  constructor
  · intro M
    constructor
    · show (10 : ℝ) ^ (((0.1238 * M + 0.983 : ℚ) : ℝ)) = _
      norm_num
    · by_cases h : (6.5 : ℚ) ≤ M
      · show (if (6.5 : ℚ) ≤ M then (10 : ℝ) ^ (((0.032 * M + 2.7389 : ℚ) : ℝ))
          else (10 : ℝ) ^ (((0.5409 * M - 0.547 : ℚ) : ℝ))) = _
        rw [if_pos h, if_pos h]
        norm_num
      · show (if (6.5 : ℚ) ≤ M then (10 : ℝ) ^ (((0.032 * M + 2.7389 : ℚ) : ℝ))
          else (10 : ℝ) ^ (((0.5409 * M - 0.547 : ℚ) : ℝ))) = _
        rw [if_neg h, if_neg h]
        norm_num
  · refine ⟨6.49, by norm_num, ?_⟩
    show (if (6.5 : ℚ) ≤ (6.5 : ℚ) then (10 : ℝ) ^ (((0.032 * 6.5 + 2.7389 : ℚ) : ℝ))
        else _) <
      (if (6.5 : ℚ) ≤ (6.49 : ℚ) then _
        else (10 : ℝ) ^ (((0.5409 * 6.49 - 0.547 : ℚ) : ℝ)))
    rw [if_pos (le_refl (6.5 : ℚ)), if_neg (by norm_num : ¬ (6.5 : ℚ) ≤ 6.49)]
    rw [Real.rpow_lt_rpow_left_iff (by norm_num : (1 : ℝ) < 10)]
    norm_num

/-- C6: the scaled G-K window is exactly the standard window multiplied
componentwise by the scale factor, and scaling by 1 is the identity. -/
theorem claim_C6 :
    ∀ (M s : ℚ), gk_window_scaled M s =
      ((gk_window M).1 * (s : ℝ), (gk_window M).2 * (s : ℝ)) ∧
    gk_window_scaled M 1 = gk_window M := by
  intro M s
  constructor
  · rfl
  · show ((gk_window M).1 * ((1 : ℚ) : ℝ), (gk_window M).2 * ((1 : ℚ) : ℝ)) = _
    norm_num

/-- C7: the haversine distance handles the antimeridian correctly: the
distance between (0, 179.9) and (0, -179.9) is exactly 6371 pi / 900 km,
which lies strictly between 22.2 and 22.3 km (the short way around), far
from 39978 km. -/
theorem claim_C7 :
    haversine_km 0 179.9 0 (-179.9) = 6371 * Real.pi / 900 ∧
    22.2 < haversine_km 0 179.9 0 (-179.9) ∧
    haversine_km 0 179.9 0 (-179.9) < 22.3 := by
  have hval : haversine_km 0 179.9 0 (-179.9) = 6371 * Real.pi / 900 := by
    unfold haversine_km radiansQ EARTH_RADIUS_KM
    dsimp only
    have h0 : (((0 : ℚ) : ℝ) * Real.pi / 180 - ((0 : ℚ) : ℝ) * Real.pi / 180) / 2
        = 0 := by push_cast; ring
    have hang : ((((-179.9 : ℚ)) : ℝ) * Real.pi / 180 -
        ((179.9 : ℚ) : ℝ) * Real.pi / 180) / 2 =
        -(Real.pi - Real.pi / 1800) := by push_cast; ring
    rw [h0, hang, Real.sin_zero, Real.sin_neg, Real.sin_pi_sub]
    have hcos : Real.cos (((0 : ℚ) : ℝ) * Real.pi / 180) = 1 := by
      norm_num
    rw [hcos]
    have hs : (0 : ℝ) ≤ Real.sin (Real.pi / 1800) :=
      Real.sin_nonneg_of_nonneg_of_le_pi
        (by positivity)
        (by nlinarith [Real.pi_pos])
    have hsq : (0 : ℝ) ^ 2 + 1 * 1 * (-Real.sin (Real.pi / 1800)) ^ 2 =
        Real.sin (Real.pi / 1800) ^ 2 := by ring
    rw [hsq, Real.sqrt_sq hs, Real.arcsin_sin
      (by nlinarith [Real.pi_pos]) (by nlinarith [Real.pi_pos])]
    ring
  refine ⟨hval, ?_, ?_⟩
  · rw [hval]
    nlinarith [Real.pi_gt_d6]
  · rw [hval]
    nlinarith [Real.pi_lt_d6]

end NornirUrd

namespace NornirUrd

/-- Specification-side traversal order ("Sort events by time ascending,
original order breaks ties"): positions in the stable sort by the parsed
instant. -/
def specChronOrder (events : List Event) : List ℕ :=
  sortIdx (fun i => timeAt events i) events.length

/-- Catalog exhibiting the string-sort / instant-sort divergence: the second
event is half a second later than the first, but its raw `event_at` string
sorts first (the decimal point sorts before the Z suffix). -/
def c2Ev1 : Event := ⟨"a", "2021-01-01T00:00:00Z", 10, 20, 6⟩

/-- Second event of the divergence catalog. -/
def c2Ev2 : Event := ⟨"b", "2021-01-01T00:00:00.5Z", 10, 20, 5⟩

/-- Divergence catalog for C2. -/
def c2Cat : List Event := [c2Ev1, c2Ev2]

/-- C2: `decluster_reasenberg` sorts positions by the RAW `event_at` string
(`key=lambda i: events[i]["event_at"]`), not by the parsed instant.  On a
well-formed catalog whose first event precedes the second by half a second,
the code traverses the later event first, while the stable sort on parsed
timestamps demanded by the spec (and by the source's own "sort events
chronologically" comment) orders them the other way. -/
theorem claim_C2 :
    WFCat c2Cat ∧
    timeAt c2Cat 1 - timeAt c2Cat 0 = 500000 ∧
    rbOrder c2Cat = [1, 0] ∧
    rbSorted c2Cat = [c2Ev2, c2Ev1] ∧
    specChronOrder c2Cat = [0, 1] ∧
    rbOrder c2Cat ≠ specChronOrder c2Cat := by
  refine ⟨by decide, by decide, by decide, by decide, by decide, by decide⟩

end NornirUrd

namespace NornirUrd

theorem range_one_eq : List.range 1 = [0] := rfl

theorem sortIdx_one {κ : Type} [LinearOrder κ] (key : ℕ → κ) :
    sortIdx key 1 = [0] := rfl

theorem indicesByMag_singleton (e : Event) : indicesByMag [e] = [0] := rfl

theorem rbSorted_singleton (e : Event) : rbSorted [e] = [e] := rfl

theorem gkDepFlags_singleton (wfn : ℚ → ℝ × ℝ) (e : Event) :
    gkDepFlags wfn [e] = [false] := by
  unfold gkDepFlags
  rw [indicesByMag_singleton]
  simp only [List.foldl_cons, List.foldl_nil]
  unfold gkCandidate gkInner gkInnerStep
  simp only [List.length_singleton]
  rw [range_one_eq]
  simp

theorem gkDeclusterCore_singleton (wfn : ℚ → ℝ × ℝ) (e : Event) :
    gkDeclusterCore wfn [e] = ([e], []) := by
  unfold gkDeclusterCore
  rw [gkDepFlags_singleton]
  simp [List.enum]

theorem gkpFinal_singleton (scale : ℚ) (e : Event) :
    gkpFinal scale [e] = gkpInit 1 := by
  unfold gkpFinal
  rw [indicesByMag_singleton]
  simp only [List.foldl_cons, List.foldl_nil]
  unfold gkpCandidate gkpInner gkpInnerStep gkpInit
  simp only [List.length_singleton]
  rw [range_one_eq]
  simp

theorem decluster_with_parents_singleton (scale : ℚ) (e : Event) :
    decluster_with_parents [e] scale = ([e], []) := by
  unfold decluster_with_parents
  rw [gkpFinal_singleton]
  simp [List.enum, gkpInit]

theorem rbClusters_singleton (e : Event) (rfact tau_min tau_max p xmeff : ℚ) :
    rbClusters [e] rfact tau_min tau_max p xmeff =
      [⟨(evAt [e] 0).usgs_mag, 0, 0, {0}⟩] := by
  unfold rbClusters
  rw [rbSorted_singleton]
  show List.foldl (rbStep [e] rfact tau_min tau_max p xmeff) [] (List.range 1) = _
  rw [range_one_eq]
  simp only [List.foldl_cons, List.foldl_nil]
  unfold rbStep rbFindBest
  simp [magAt]

theorem decluster_reasenberg_singleton (e : Event)
    (rfact tau_min tau_max p xmeff : ℚ) :
    decluster_reasenberg [e] rfact tau_min tau_max p xmeff = ([e], []) := by
  unfold decluster_reasenberg
  rw [rbClusters_singleton, rbSorted_singleton]
  unfold rbDepFlags rbDepUpdate
  simp [List.enum]

/-- C8: an empty catalog is not an error for any of the five entry points
(each returns two empty partitions), and a single-event catalog always
yields that event as the sole mainshock with no aftershocks. -/
theorem claim_C8 (e : Event) (hwf : (parseTS e.event_at).isSome)
    (radius_km window_days window_scale rfact tau_min tau_max p xmeff : ℚ) :
    (decluster_gardner_knopoff [] = ([], []) ∧
      decluster_gardner_knopoff_table [] = ([], []) ∧
      decluster_a1b_fixed [] radius_km window_days = ([], []) ∧
      decluster_with_parents [] window_scale = ([], []) ∧
      decluster_reasenberg [] rfact tau_min tau_max p xmeff = ([], [])) ∧
    (decluster_gardner_knopoff [e] = ([e], []) ∧
      decluster_gardner_knopoff_table [e] = ([e], []) ∧
      decluster_a1b_fixed [e] radius_km window_days = ([e], []) ∧
      decluster_with_parents [e] window_scale = ([e], []) ∧
      decluster_reasenberg [e] rfact tau_min tau_max p xmeff = ([e], [])) := by
  refine ⟨⟨rfl, rfl, rfl, rfl, rfl⟩,
    ⟨gkDeclusterCore_singleton _ _, gkDeclusterCore_singleton _ _,
      gkDeclusterCore_singleton _ _, decluster_with_parents_singleton _ _,
      decluster_reasenberg_singleton _ _ _ _ _ _⟩⟩

/-- C8 witness: the empty/single-event behavior at a concrete event with a
parseable timestamp and the default tunables. -/
theorem claim_C8_witness :
    (parseTS demoEv1.event_at).isSome ∧
    decluster_gardner_knopoff [demoEv1] = ([demoEv1], []) ∧
    decluster_reasenberg [demoEv1] 10 1 10 0.95 1.5 = ([demoEv1], []) :=
  ⟨by decide, ((claim_C8 demoEv1 (by decide) 83.2 95.6 1 10 1 10 0.95 1.5).2).1,
    ((((claim_C8 demoEv1 (by decide) 83.2 95.6 1 10 1 10 0.95 1.5).2).2).2).2.2⟩

end NornirUrd

namespace NornirUrd

/-- Within-window test of the G-K core for candidate `idx` against `j` (the
complement of the time and distance `continue` guards). -/
def gkWin (wfn : ℚ → ℝ × ℝ) (l : List Event) (idx j : ℕ) : Prop :=
  (dtAbsSecs l idx j : ℝ) ≤ (wfn (magAt l idx)).2 * 86400 ∧
  havAt l idx j ≤ (wfn (magAt l idx)).1

/-- Hit condition of the inner G-K scan for candidate `idx` against `j`:
distinct position, magnitude not larger, inside the candidate's window. -/
def gkHit (wfn : ℚ → ℝ × ℝ) (l : List Event) (idx j : ℕ) : Prop :=
  j ≠ idx ∧ magAt l j ≤ magAt l idx ∧ gkWin wfn l idx j

/-- Slot view of the dependency array at position `j`. -/
def depSlot (j : ℕ) (dep : List Bool) : Bool × ℕ := (dep.getD j false, dep.length)

theorem gkInnerStep_slot_ne (wfn : ℚ → ℝ × ℝ) (l : List Event) (idx : ℕ)
    (dep : List Bool) {j k : ℕ} (hk : k ≠ j) :
    depSlot j (gkInnerStep wfn l idx dep k) = depSlot j dep := by
  unfold gkInnerStep depSlot
  split_ifs <;>
    simp [List.getD_eq_getElem?_getD, List.getElem?_set_ne hk, List.length_set]

theorem gkInnerStep_length (wfn : ℚ → ℝ × ℝ) (l : List Event) (idx : ℕ)
    (dep : List Bool) (k : ℕ) :
    (gkInnerStep wfn l idx dep k).length = dep.length := by
  unfold gkInnerStep
  split_ifs <;> simp [List.length_set]

theorem gkInnerStep_not_hit (wfn : ℚ → ℝ × ℝ) (l : List Event) {idx j : ℕ}
    (hnh : ¬ gkHit wfn l idx j) (dep : List Bool) :
    gkInnerStep wfn l idx dep j = dep := by
  unfold gkInnerStep
  split_ifs with hc1 hc2 hc3 hc4
  · rfl
  · rfl
  · rfl
  · rfl
  · exact absurd ⟨fun h => hc1 (Or.inl h), le_of_not_lt hc2,
      le_of_not_lt hc3, le_of_not_lt hc4⟩ hnh

theorem gkInnerStep_hit (wfn : ℚ → ℝ × ℝ) (l : List Event) {idx j : ℕ}
    (hhit : gkHit wfn l idx j) (dep : List Bool) (hj : j < dep.length) :
    (gkInnerStep wfn l idx dep j).getD j false = true := by
  obtain ⟨hne, hmag, htw, hdw⟩ := hhit
  unfold gkInnerStep
  by_cases hd : dep.getD j false = true
  · rw [if_pos (Or.inr hd)]
    exact hd
  · rw [if_neg (fun hor => hor.elim hne hd), if_neg (not_lt_of_le hmag),
      if_neg (not_lt_of_le htw), if_neg (not_lt_of_le hdw)]
    exact getD_set_self _ _ _ hj

theorem gkInnerStep_true (wfn : ℚ → ℝ × ℝ) (l : List Event) (idx j : ℕ)
    (dep : List Bool) (hd : dep.getD j false = true) :
    (gkInnerStep wfn l idx dep j).getD j false = true := by
  unfold gkInnerStep
  rw [if_pos (Or.inr hd)]
  exact hd

theorem gkInnerStep_slot_loc (wfn : ℚ → ℝ × ℝ) (l : List Event) (idx j : ℕ)
    (dep dep2 : List Bool) (h : depSlot j dep = depSlot j dep2) :
    depSlot j (gkInnerStep wfn l idx dep j) =
      depSlot j (gkInnerStep wfn l idx dep2 j) := by
  have h1 : dep.getD j false = dep2.getD j false := congrArg Prod.fst h
  have h2 : dep.length = dep2.length := congrArg Prod.snd h
  by_cases hhit : gkHit wfn l idx j
  · by_cases hd : dep.getD j false = true
    · unfold gkInnerStep
      rw [if_pos (Or.inr hd), if_pos (Or.inr (h1 ▸ hd))]
      exact h
    · by_cases hj : j < dep.length
      · unfold depSlot
        rw [gkInnerStep_hit wfn l hhit dep hj,
          gkInnerStep_hit wfn l hhit dep2 (h2 ▸ hj),
          gkInnerStep_length, gkInnerStep_length, h2]
      · obtain ⟨hne, hmag, htw, hdw⟩ := hhit
        have hd2 : ¬ dep2.getD j false = true := h1 ▸ hd
        have e1 : gkInnerStep wfn l idx dep j = dep := by
          unfold gkInnerStep
          rw [if_neg (fun hor => hor.elim hne hd),
            if_neg (not_lt_of_le hmag), if_neg (not_lt_of_le htw),
            if_neg (not_lt_of_le hdw),
            List.set_eq_of_length_le (le_of_not_lt hj)]
        have e2 : gkInnerStep wfn l idx dep2 j = dep2 := by
          unfold gkInnerStep
          rw [if_neg (fun hor => hor.elim hne hd2),
            if_neg (not_lt_of_le hmag), if_neg (not_lt_of_le htw),
            if_neg (not_lt_of_le hdw),
            List.set_eq_of_length_le (h2 ▸ le_of_not_lt hj)]
        rw [e1, e2]
        exact h
  · rw [gkInnerStep_not_hit wfn l hhit, gkInnerStep_not_hit wfn l hhit]
    exact h

theorem gkInner_length (wfn : ℚ → ℝ × ℝ) (l : List Event) (idx : ℕ)
    (dep : List Bool) : (gkInner wfn l idx dep).length = dep.length := by
  unfold gkInner
  generalize List.range l.length = L
  induction L generalizing dep with
  | nil => rfl
  | cons a L ih =>
    rw [List.foldl_cons, ih, gkInnerStep_length]

/-- Slot form of the inner scan: the final value at `j` is the value after
the single `j` iteration applied to the initial array. -/
theorem gkInner_slot (wfn : ℚ → ℝ × ℝ) (l : List Event) (idx j : ℕ)
    (hj : j < l.length) (dep : List Bool) :
    depSlot j (gkInner wfn l idx dep) =
      depSlot j (gkInnerStep wfn l idx dep j) :=
  foldl_slot (gkInnerStep wfn l idx) (depSlot j) j
    (fun st k hk => gkInnerStep_slot_ne wfn l idx st hk)
    (fun st st2 h => gkInnerStep_slot_loc wfn l idx j st st2 h)
    (List.range l.length) (List.nodup_range l.length)
    (List.mem_range.mpr hj) dep

theorem gkInner_getD_hit (wfn : ℚ → ℝ × ℝ) (l : List Event) {idx j : ℕ}
    (hhit : gkHit wfn l idx j) (dep : List Bool) (hj : j < l.length)
    (hlen : dep.length = l.length) :
    (gkInner wfn l idx dep).getD j false = true := by
  have h := congrArg Prod.fst (gkInner_slot wfn l idx j hj dep)
  simp only [depSlot] at h
  rw [h, gkInnerStep_hit wfn l hhit dep (hlen ▸ hj)]

theorem gkInner_getD_not_hit (wfn : ℚ → ℝ × ℝ) (l : List Event) {idx j : ℕ}
    (hnh : ¬ gkHit wfn l idx j) (dep : List Bool) :
    (gkInner wfn l idx dep).getD j false = dep.getD j false := by
  by_cases hj : j < l.length
  · have h := congrArg Prod.fst (gkInner_slot wfn l idx j hj dep)
    simp only [depSlot] at h
    rw [h, gkInnerStep_not_hit wfn l hnh]
  · have h := congrArg Prod.fst
      (foldl_slot_of_not_mem (gkInnerStep wfn l idx) (depSlot j) j
        (fun st k hk => gkInnerStep_slot_ne wfn l idx st hk)
        (List.range l.length) (fun hm => hj (List.mem_range.mp hm)) dep)
    simpa only [depSlot] using h

theorem gkInner_getD_true (wfn : ℚ → ℝ × ℝ) (l : List Event) (idx j : ℕ)
    (dep : List Bool) (hd : dep.getD j false = true) :
    (gkInner wfn l idx dep).getD j false = true := by
  by_cases hj : j < l.length
  · have h := congrArg Prod.fst (gkInner_slot wfn l idx j hj dep)
    simp only [depSlot] at h
    rw [h, gkInnerStep_true wfn l idx j dep hd]
  · have h := congrArg Prod.fst
      (foldl_slot_of_not_mem (gkInnerStep wfn l idx) (depSlot j) j
        (fun st k hk => gkInnerStep_slot_ne wfn l idx st hk)
        (List.range l.length) (fun hm => hj (List.mem_range.mp hm)) dep)
    simp only [depSlot] at h
    rw [show (gkInner wfn l idx dep) = List.foldl (gkInnerStep wfn l idx) dep
      (List.range l.length) from rfl, h, hd]

end NornirUrd

namespace NornirUrd

theorem gkCandidate_length (wfn : ℚ → ℝ × ℝ) (l : List Event)
    (dep : List Bool) (idx : ℕ) :
    (gkCandidate wfn l dep idx).length = dep.length := by
  unfold gkCandidate
  split_ifs
  · rfl
  · exact gkInner_length wfn l idx dep

theorem gkCandidate_getD_true (wfn : ℚ → ℝ × ℝ) (l : List Event)
    (dep : List Bool) (idx j : ℕ) (hd : dep.getD j false = true) :
    (gkCandidate wfn l dep idx).getD j false = true := by
  unfold gkCandidate
  split_ifs
  · exact hd
  · exact gkInner_getD_true wfn l idx j dep hd

theorem gkFold_getD_true (wfn : ℚ → ℝ × ℝ) (l : List Event) (j : ℕ) :
    ∀ (L : List ℕ) (dep : List Bool), dep.getD j false = true →
      (L.foldl (gkCandidate wfn l) dep).getD j false = true := by
  intro L
  induction L with
  | nil => intro dep hd; exact hd
  | cons a L ih =>
    intro dep hd
    exact ih _ (gkCandidate_getD_true wfn l dep a j hd)

/-- Group of equal-magnitude, mutually proximate events: a nonempty set of
catalog positions of common magnitude `m`, each pair inside the window
computed from `m`. -/
def GKGroup (wfn : ℚ → ℝ × ℝ) (l : List Event) (G : Finset ℕ) (m : ℚ) : Prop :=
  G.Nonempty ∧ (∀ i ∈ G, i < l.length ∧ magAt l i = m) ∧
  (∀ i ∈ G, ∀ j ∈ G, i ≠ j → gkWin wfn l i j)

/-- Invariant preservation along the candidate fold: once the earliest group
member is unflagged with all other members flagged, and every non-member is
strictly smaller, further candidates never unflag members nor flag the
earliest member. -/
theorem gkGroup_fold_inv (wfn : ℚ → ℝ × ℝ) (l : List Event) (G : Finset ℕ)
    (m : ℚ) (g0 : ℕ) (hg0 : g0 ∈ G)
    (hGm : ∀ i ∈ G, i < l.length ∧ magAt l i = m)
    (hiso : ∀ k, k < l.length → k ∉ G → magAt l k < m) :
    ∀ (L : List ℕ) (dep : List Bool), (∀ k ∈ L, k < l.length) →
      dep.length = l.length → dep.getD g0 false = false →
      (∀ j ∈ G, j ≠ g0 → dep.getD j false = true) →
      (L.foldl (gkCandidate wfn l) dep).getD g0 false = false ∧
      (∀ j ∈ G, j ≠ g0 → (L.foldl (gkCandidate wfn l) dep).getD j false = true) := by
  intro L
  induction L with
  | nil => intro dep _ _ h3 h4; exact ⟨h3, h4⟩
  | cons a L ih =>
    intro dep hL hlen h3 h4
    have han : a < l.length := hL a (List.mem_cons_self a L)
    have hstep3 : (gkCandidate wfn l dep a).getD g0 false = false := by
      unfold gkCandidate
      split_ifs with hda
      · exact h3
      · have hnh : ¬ gkHit wfn l a g0 := by
          by_cases haG : a ∈ G
          · by_cases hag0 : a = g0
            · intro hh
              exact hh.1 hag0.symm
            · exact absurd (h4 a haG hag0) hda
          · intro hh
            have hm1 : magAt l g0 = m := (hGm g0 hg0).2
            have hm2 : magAt l a < m := hiso a han haG
            exact absurd (hm1 ▸ hh.2.1) (not_le_of_lt hm2)
        rw [gkInner_getD_not_hit wfn l hnh dep]
        exact h3
    have hstep4 : ∀ j ∈ G, j ≠ g0 →
        (gkCandidate wfn l dep a).getD j false = true := fun j hj hjne =>
      gkCandidate_getD_true wfn l dep a j (h4 j hj hjne)
    have hstepl : (gkCandidate wfn l dep a).length = l.length := by
      rw [gkCandidate_length]; exact hlen
    exact ih (gkCandidate wfn l dep a) (fun k hk => hL k (List.mem_cons_of_mem a hk))
      hstepl hstep3 hstep4

/-- Head of the stable sort is any key-minimal position. -/
theorem sortIdx_head_of_min {κ : Type} [LinearOrder κ] (key : ℕ → κ) (n x : ℕ)
    (hx : x < n) (hmin : ∀ y, y < n → keyIdxLe key x y) :
    ∃ L2, sortIdx key n = x :: L2 := by
  cases hs : sortIdx key n with
  | nil =>
    have : x ∈ sortIdx key n := (sortIdx_mem key n x).mpr hx
    rw [hs] at this
    exact absurd this (List.not_mem_nil x)
  | cons h t =>
    by_cases hhx : h = x
    · exact ⟨t, by rw [hhx]⟩
    · have hxmem : x ∈ sortIdx key n := (sortIdx_mem key n x).mpr hx
      rw [hs] at hxmem
      have hxt : x ∈ t := by
        rcases List.mem_cons.mp hxmem with h1 | h1
        · exact absurd h1.symm hhx
        · exact h1
      have hsort := sortIdx_sorted key n
      rw [hs] at hsort
      have hhxle : keyIdxLe key h x := (List.pairwise_cons.mp hsort).1 x hxt
      have hh : h ∈ sortIdx key n := by rw [hs]; exact List.mem_cons_self h t
      have hhn : h < n := (sortIdx_mem key n h).mp hh
      exact absurd (keyIdxLe_antisymm key hhxle (hmin h hhn)) hhx

/-- Position-value pairs are members of the enumeration. -/
theorem evAt_mem_enum (l : List Event) {i : ℕ} (hi : i < l.length) :
    (i, evAt l i) ∈ l.enum := by
  apply List.mem_iff_getElem.mpr
  refine ⟨i, by simpa [List.enum_length] using hi, ?_⟩
  rw [List.getElem_enum]
  simp only [evAt, List.getD_eq_getElem?_getD, List.getElem?_eq_getElem hi]
  rfl

end NornirUrd

namespace NornirUrd

theorem getD_replicate_false {n j : ℕ} :
    (List.replicate n false).getD j false = false := by
  rw [List.getD_eq_getElem?_getD, List.getElem?_replicate]
  split_ifs <;> rfl

/-- Membership in a filtered enumeration split. -/
theorem mem_filterEnum_map {l : List Event} (p : ℕ → Bool) {i : ℕ}
    (hi : i < l.length) (hp : p i = true) :
    evAt l i ∈ (l.enum.filter (fun q => p q.1)).map Prod.snd :=
  List.mem_map.mpr ⟨(i, evAt l i),
    List.mem_filter.mpr ⟨evAt_mem_enum l hi, hp⟩, rfl⟩

theorem isEmpty_false_of_lt {l : List Event} {i : ℕ} (hi : i < l.length) :
    l.isEmpty = false := by
  cases l with
  | nil => exact absurd hi (by simp)
  | cons a t => rfl

theorem gkDeclusterCore_mem_main (wfn : ℚ → ℝ × ℝ) (l : List Event) {i : ℕ}
    (hi : i < l.length) (hf : (gkDepFlags wfn l).getD i false = false) :
    evAt l i ∈ (gkDeclusterCore wfn l).1 := by
  unfold gkDeclusterCore
  rw [isEmpty_false_of_lt hi]
  simp only [Bool.false_eq_true, if_false]
  exact mem_filterEnum_map (fun k => !(gkDepFlags wfn l).getD k false) hi
    (by simp [← List.getD_eq_getElem?_getD, hf])

theorem gkDeclusterCore_mem_after (wfn : ℚ → ℝ × ℝ) (l : List Event) {i : ℕ}
    (hi : i < l.length) (hf : (gkDepFlags wfn l).getD i false = true) :
    evAt l i ∈ (gkDeclusterCore wfn l).2 := by
  unfold gkDeclusterCore
  rw [isEmpty_false_of_lt hi]
  simp only [Bool.false_eq_true, if_false]
  exact mem_filterEnum_map (fun k => (gkDepFlags wfn l).getD k false) hi hf

/-- C4 (amended): in the Gardner-Knopoff engine, for every group of
equal-magnitude, mutually proximate events such that every event outside the
group has strictly smaller magnitude, exactly one member — the one earliest
in original catalog order, which is first in the stable descending-magnitude
sort — is output as a Mainshock, and every other member is output as an
Aftershock. -/
theorem claim_C4 (wfn : ℚ → ℝ × ℝ) (l : List Event) (G : Finset ℕ) (m : ℚ)
    (hG : GKGroup wfn l G m)
    (hiso : ∀ k, k < l.length → k ∉ G → magAt l k < m) :
    (gkDepFlags wfn l).getD (G.min' hG.1) false = false ∧
    (∀ j ∈ G, j ≠ G.min' hG.1 → (gkDepFlags wfn l).getD j false = true) ∧
    evAt l (G.min' hG.1) ∈ (gkDeclusterCore wfn l).1 ∧
    (∀ j ∈ G, j ≠ G.min' hG.1 → evAt l j ∈ (gkDeclusterCore wfn l).2) := by
  obtain ⟨hne, hGm, hGw⟩ := hG
  have hg0G : G.min' hne ∈ G := G.min'_mem hne
  have hg0n : G.min' hne < l.length := (hGm _ hg0G).1
  have hmin : ∀ y, y < l.length →
      keyIdxLe (fun i => OrderDual.toDual (magAt l i)) (G.min' hne) y := by
    intro y hy
    by_cases hyG : y ∈ G
    · exact Or.inr ⟨by
        show OrderDual.toDual (magAt l (G.min' hne)) = OrderDual.toDual (magAt l y)
        rw [(hGm _ hg0G).2, (hGm _ hyG).2], G.min'_le y hyG⟩
    · refine Or.inl ?_
      show OrderDual.toDual (magAt l (G.min' hne)) < OrderDual.toDual (magAt l y)
      rw [OrderDual.toDual_lt_toDual, (hGm _ hg0G).2]
      exact hiso y hy hyG
  obtain ⟨L2, hL2⟩ := sortIdx_head_of_min
    (fun i => OrderDual.toDual (magAt l i)) l.length (G.min' hne) hg0n hmin
  have hL2sub : ∀ k ∈ L2, k < l.length := by
    intro k hk
    have : k ∈ sortIdx (fun i => OrderDual.toDual (magAt l i)) l.length := by
      rw [hL2]
      exact List.mem_cons_of_mem _ hk
    exact (sortIdx_mem _ _ _).mp this
  have hflags : gkDepFlags wfn l =
      L2.foldl (gkCandidate wfn l)
        (gkCandidate wfn l (List.replicate l.length false) (G.min' hne)) := by
    unfold gkDepFlags indicesByMag
    rw [hL2, List.foldl_cons]
  have hdep1g0 : (gkCandidate wfn l (List.replicate l.length false)
      (G.min' hne)).getD (G.min' hne) false = false := by
    unfold gkCandidate
    rw [if_neg (by rw [getD_replicate_false]; exact Bool.false_ne_true)]
    rw [gkInner_getD_not_hit wfn l (fun hh => hh.1 rfl)]
    exact getD_replicate_false
  have hdep1G : ∀ j ∈ G, j ≠ G.min' hne →
      (gkCandidate wfn l (List.replicate l.length false)
        (G.min' hne)).getD j false = true := by
    intro j hj hjne
    unfold gkCandidate
    rw [if_neg (by rw [getD_replicate_false]; exact Bool.false_ne_true)]
    refine gkInner_getD_hit wfn l ⟨hjne, ?_, ?_⟩ _ (hGm _ hj).1
      (List.length_replicate _ _)
    · rw [(hGm _ hj).2, (hGm _ hg0G).2]
    · exact hGw _ hg0G _ hj (fun h => hjne h.symm)
  have hdep1len : (gkCandidate wfn l (List.replicate l.length false)
      (G.min' hne)).length = l.length := by
    rw [gkCandidate_length, List.length_replicate]
  have hinv := gkGroup_fold_inv wfn l G m (G.min' hne) hg0G hGm hiso L2
    (gkCandidate wfn l (List.replicate l.length false) (G.min' hne))
    hL2sub hdep1len hdep1g0 hdep1G
  rw [← hflags] at hinv
  refine ⟨hinv.1, hinv.2, ?_, ?_⟩
  · exact gkDeclusterCore_mem_main wfn l hg0n hinv.1
  · intro j hj hjne
    exact gkDeclusterCore_mem_after wfn l (hGm _ hj).1 (hinv.2 j hj hjne)

end NornirUrd

namespace NornirUrd

/-- Haversine distance from a point to itself vanishes. -/
theorem haversine_km_self (lat lon : ℚ) : haversine_km lat lon lat lon = 0 := by
  unfold haversine_km
  dsimp only
  rw [sub_self, sub_self]
  norm_num

/-- Delta seconds from a concrete microsecond difference. -/
theorem dtAbsSecs_of_timeAt {l : List Event} {i j : ℕ} {d : ℤ}
    (h : timeAt l j - timeAt l i = d) :
    dtAbsSecs l i j = |(d : ℚ)| / 1000000 := by
  unfold dtAbsSecs dtSecs
  rw [h, abs_div]
  norm_num

/-- Fixed-window function used in the C4 scenarios (the A1b defaults). -/
noncomputable def c4wfn : ℚ → ℝ × ℝ := fun _ => ((83.2 : ℝ), (95.6 : ℝ))

/-- Interfering large event at the shared location, at time zero. -/
def c4X : Event := ⟨"X", "2020-01-01T00:00:00Z", 0, 0, 9⟩

/-- First group member, 50 days later (inside the window of `c4X`). -/
def c4m1 : Event := ⟨"m1", "2020-02-20T00:00:00Z", 0, 0, 5⟩

/-- Second group member, 120 days after `c4X` (outside its window) and 70
days after `c4m1` (inside the group window). -/
def c4m2 : Event := ⟨"m2", "2020-04-30T00:00:00Z", 0, 0, 5⟩

/-- Interference catalog for the C4 counterexample. -/
def c4CatX : List Event := [c4X, c4m1, c4m2]

/-- The equal-magnitude mutually proximate group inside `c4CatX`. -/
def c4G12 : Finset ℕ := {1, 2}

theorem c4_time01 : timeAt c4CatX 1 - timeAt c4CatX 0 = 4320000000000 := by
  decide

theorem c4_time02 : timeAt c4CatX 2 - timeAt c4CatX 0 = 10368000000000 := by
  decide

theorem c4_time12 : timeAt c4CatX 2 - timeAt c4CatX 1 = 6048000000000 := by
  decide

theorem c4_dz : ∀ i j : ℕ, havAt c4CatX i j = 0 := by
  intro i j
  have hz : ∀ k : ℕ, (evAt c4CatX k).latitude = 0 ∧
      (evAt c4CatX k).longitude = 0 := by
    intro k
    match k with
    | 0 => exact ⟨rfl, rfl⟩
    | 1 => exact ⟨rfl, rfl⟩
    | 2 => exact ⟨rfl, rfl⟩
    | (n + 3) => exact ⟨rfl, rfl⟩
  unfold havAt
  rw [(hz i).1, (hz i).2, (hz j).1, (hz j).2]
  exact haversine_km_self 0 0

theorem c4_win12 : gkWin c4wfn c4CatX 1 2 := by
  unfold gkWin c4wfn
  constructor
  · rw [dtAbsSecs_of_timeAt c4_time12]
    push_cast
    norm_num
  · rw [c4_dz 1 2]
    norm_num

theorem c4_time21 : timeAt c4CatX 1 - timeAt c4CatX 2 = -6048000000000 := by
  decide

theorem c4_win21 : gkWin c4wfn c4CatX 2 1 := by
  unfold gkWin c4wfn
  constructor
  · rw [dtAbsSecs_of_timeAt c4_time21]
    push_cast
    rw [abs_neg]
    norm_num
  · rw [c4_dz 2 1]
    norm_num

theorem c4_group : GKGroup c4wfn c4CatX c4G12 5 := by
  refine ⟨⟨1, by decide⟩, ?_, ?_⟩
  · intro i hi
    fin_cases hi
    · exact ⟨by decide, by decide⟩
    · exact ⟨by decide, by decide⟩
  · intro i hi j hj hne
    fin_cases hi <;> fin_cases hj
    · exact absurd rfl hne
    · exact c4_win12
    · exact c4_win21
    · exact absurd rfl hne

end NornirUrd

namespace NornirUrd

/-- C4 counterexample: the claim as stated fails once a larger event
interferes with the group.  In `c4CatX` the events at positions 1 and 2 form
an equal-magnitude mutually proximate group, yet the group member earliest
in catalog order (position 1) is output as an Aftershock (it was flagged by
the larger event at position 0), and the later member (position 2) is the
group's Mainshock. -/
theorem claim_C4_counterexample :
    GKGroup c4wfn c4CatX c4G12 5 ∧
    (∀ hne : c4G12.Nonempty, c4G12.min' hne = 1) ∧
    (gkDepFlags c4wfn c4CatX).getD 1 false = true ∧
    (gkDepFlags c4wfn c4CatX).getD 2 false = false ∧
    evAt c4CatX 1 ∈ (gkDeclusterCore c4wfn c4CatX).2 ∧
    evAt c4CatX 2 ∈ (gkDeclusterCore c4wfn c4CatX).1 := by
  have hidx : indicesByMag c4CatX = [0, 1, 2] := by decide
  have h01 : gkHit c4wfn c4CatX 0 1 := by
    refine ⟨by decide, by decide, ?_⟩
    unfold gkWin c4wfn
    constructor
    · rw [dtAbsSecs_of_timeAt c4_time01]
      push_cast
      norm_num
    · rw [c4_dz 0 1]
      norm_num
  have hn02 : ¬ gkHit c4wfn c4CatX 0 2 := by
    intro hh
    have hw := hh.2.2
    unfold gkWin c4wfn at hw
    have hw1 := hw.1
    rw [dtAbsSecs_of_timeAt c4_time02] at hw1
    push_cast at hw1
    norm_num at hw1
  have hn22 : ¬ gkHit c4wfn c4CatX 2 2 := fun hh => hh.1 rfl
  have hcand0 : gkCandidate c4wfn c4CatX (List.replicate c4CatX.length false) 0
      = gkInner c4wfn c4CatX 0 (List.replicate c4CatX.length false) := by
    unfold gkCandidate
    rw [if_neg (by decide)]
  have h1t : (gkInner c4wfn c4CatX 0
      (List.replicate c4CatX.length false)).getD 1 false = true :=
    gkInner_getD_hit c4wfn c4CatX h01 _ (by decide) (by decide)
  have h2f : (gkInner c4wfn c4CatX 0
      (List.replicate c4CatX.length false)).getD 2 false = false := by
    rw [gkInner_getD_not_hit c4wfn c4CatX hn02]
    decide
  have hcand1 : gkCandidate c4wfn c4CatX
      (gkInner c4wfn c4CatX 0 (List.replicate c4CatX.length false)) 1 =
      gkInner c4wfn c4CatX 0 (List.replicate c4CatX.length false) := by
    unfold gkCandidate
    rw [if_pos h1t]
  have hcand2 : gkCandidate c4wfn c4CatX
      (gkInner c4wfn c4CatX 0 (List.replicate c4CatX.length false)) 2 =
      gkInner c4wfn c4CatX 2
        (gkInner c4wfn c4CatX 0 (List.replicate c4CatX.length false)) := by
    unfold gkCandidate
    rw [if_neg (by rw [h2f]; exact Bool.false_ne_true)]
  have hfin1 : (gkInner c4wfn c4CatX 2
      (gkInner c4wfn c4CatX 0 (List.replicate c4CatX.length false))).getD 1
      false = true :=
    gkInner_getD_true _ _ _ _ _ h1t
  have hfin2 : (gkInner c4wfn c4CatX 2
      (gkInner c4wfn c4CatX 0 (List.replicate c4CatX.length false))).getD 2
      false = false := by
    rw [gkInner_getD_not_hit c4wfn c4CatX hn22]
    exact h2f
  have hflags : gkDepFlags c4wfn c4CatX = gkInner c4wfn c4CatX 2
      (gkInner c4wfn c4CatX 0 (List.replicate c4CatX.length false)) := by
    unfold gkDepFlags
    rw [hidx]
    simp only [List.foldl_cons, List.foldl_nil]
    rw [hcand0, hcand1, hcand2]
  refine ⟨c4_group, ?_, ?_, ?_, ?_, ?_⟩
  · intro hne
    have h1m : c4G12.min' hne ∈ c4G12 := Finset.min'_mem _ _
    have h1le : c4G12.min' hne ≤ 1 := Finset.min'_le _ 1 (by decide)
    rcases Finset.mem_insert.mp h1m with h | h
    · exact h
    · rw [Finset.mem_singleton] at h
      rw [h] at h1le
      exact absurd h1le (by norm_num)
  · rw [hflags]
    exact hfin1
  · rw [hflags]
    exact hfin2
  · exact gkDeclusterCore_mem_after c4wfn c4CatX (by decide)
      (by rw [hflags]; exact hfin1)
  · exact gkDeclusterCore_mem_main c4wfn c4CatX (by decide)
      (by rw [hflags]; exact hfin2)

end NornirUrd

namespace NornirUrd

/-- First member of the isolated equal-magnitude pair. -/
def c4wEv1 : Event := ⟨"a", "2020-01-01T00:00:00Z", 0, 0, 5⟩

/-- Second member, one hour later at the same location. -/
def c4wEv2 : Event := ⟨"b", "2020-01-01T01:00:00Z", 0, 0, 5⟩

/-- Isolated two-member group catalog. -/
def c4wCat : List Event := [c4wEv1, c4wEv2]

/-- The whole catalog as a group. -/
def c4wG : Finset ℕ := {0, 1}

theorem c4w_dz : ∀ i j : ℕ, havAt c4wCat i j = 0 := by
  intro i j
  have hz : ∀ k : ℕ, (evAt c4wCat k).latitude = 0 ∧
      (evAt c4wCat k).longitude = 0 := by
    intro k
    match k with
    | 0 => exact ⟨rfl, rfl⟩
    | 1 => exact ⟨rfl, rfl⟩
    | (n + 2) => exact ⟨rfl, rfl⟩
  unfold havAt
  rw [(hz i).1, (hz i).2, (hz j).1, (hz j).2]
  exact haversine_km_self 0 0

theorem c4w_time01 : timeAt c4wCat 1 - timeAt c4wCat 0 = 3600000000 := by
  decide

theorem c4w_time10 : timeAt c4wCat 0 - timeAt c4wCat 1 = -3600000000 := by
  decide

theorem c4w_win01 : gkWin c4wfn c4wCat 0 1 := by
  unfold gkWin c4wfn
  constructor
  · rw [dtAbsSecs_of_timeAt c4w_time01]
    push_cast
    norm_num
  · rw [c4w_dz 0 1]
    norm_num

theorem c4w_win10 : gkWin c4wfn c4wCat 1 0 := by
  unfold gkWin c4wfn
  constructor
  · rw [dtAbsSecs_of_timeAt c4w_time10]
    push_cast
    rw [abs_neg]
    norm_num
  · rw [c4w_dz 1 0]
    norm_num

theorem c4w_group : GKGroup c4wfn c4wCat c4wG 5 := by
  refine ⟨⟨0, by decide⟩, ?_, ?_⟩
  · intro i hi
    fin_cases hi
    · exact ⟨by decide, by decide⟩
    · exact ⟨by decide, by decide⟩
  · intro i hi j hj hne
    fin_cases hi <;> fin_cases hj
    · exact absurd rfl hne
    · exact c4w_win01
    · exact c4w_win10
    · exact absurd rfl hne

theorem c4w_iso : ∀ k, k < c4wCat.length → k ∉ c4wG → magAt c4wCat k < 5 := by
  intro k hk hkG
  match k with
  | 0 => exact absurd (by decide) hkG
  | 1 => exact absurd (by decide) hkG
  | (n + 2) =>
    have h2 : c4wCat.length = 2 := rfl
    rw [h2] at hk
    omega

/-- C4 witness: the amended claim applied to a concrete isolated
two-member equal-magnitude group; the earlier member is the unique
mainshock and the later member is dependent. -/
theorem claim_C4_witness :
    ∃ hG : GKGroup c4wfn c4wCat c4wG 5,
      (∀ k, k < c4wCat.length → k ∉ c4wG → magAt c4wCat k < 5) ∧
      (gkDepFlags c4wfn c4wCat).getD (c4wG.min' hG.1) false = false ∧
      (∀ j ∈ c4wG, j ≠ c4wG.min' hG.1 →
        (gkDepFlags c4wfn c4wCat).getD j false = true) :=
  ⟨c4w_group, c4w_iso,
    (claim_C4 c4wfn c4wCat c4wG 5 c4w_group c4w_iso).1,
    (claim_C4 c4wfn c4wCat c4wG 5 c4w_group c4w_iso).2.1⟩

end NornirUrd

namespace NornirUrd

/-- Scaled-window test of `decluster_with_parents` for candidate `idx`
against `j`. -/
def gkpWin (scale : ℚ) (l : List Event) (idx j : ℕ) : Prop :=
  (dtAbsSecs l idx j : ℝ) ≤ (gk_window_scaled (magAt l idx) scale).2 * 86400 ∧
  havAt l idx j ≤ (gk_window_scaled (magAt l idx) scale).1

/-- Hit condition of the parent-attributing inner scan. -/
def gkpHit (scale : ℚ) (l : List Event) (idx j : ℕ) : Prop :=
  j ≠ idx ∧ magAt l j ≤ magAt l idx ∧ gkpWin scale l idx j

/-- Slot view of the side state at position `j`, together with the three
array lengths. -/
def gkpSlot (j : ℕ) (st : GKPState) :
    (Bool × Option ℕ × WithTop ℚ) × (ℕ × ℕ × ℕ) :=
  ((st.dep.getD j false, st.parent.getD j none, st.pdt.getD j ⊤),
   (st.dep.length, st.parent.length, st.pdt.length))

theorem gkpInnerStep_slot_ne (scale : ℚ) (l : List Event) (idx : ℕ)
    (st : GKPState) {j k : ℕ} (hk : k ≠ j) :
    gkpSlot j (gkpInnerStep scale l idx st k) = gkpSlot j st := by
  unfold gkpInnerStep gkpSlot
  split_ifs <;>
    simp [List.getD_eq_getElem?_getD, List.getElem?_set_ne hk, List.length_set]

theorem gkpInnerStep_lengths (scale : ℚ) (l : List Event) (idx : ℕ)
    (st : GKPState) (k : ℕ) :
    (gkpInnerStep scale l idx st k).dep.length = st.dep.length ∧
    (gkpInnerStep scale l idx st k).parent.length = st.parent.length ∧
    (gkpInnerStep scale l idx st k).pdt.length = st.pdt.length := by
  unfold gkpInnerStep
  split_ifs <;> simp [List.length_set]

theorem gkpInnerStep_not_hit (scale : ℚ) (l : List Event) {idx j : ℕ}
    (hnh : ¬ gkpHit scale l idx j) (st : GKPState) :
    gkpInnerStep scale l idx st j = st := by
  unfold gkpInnerStep
  split_ifs with hc1 hc2 hc3 hc4 hc5 hc6
  · rfl
  · rfl
  · rfl
  · rfl
  · exact absurd ⟨fun h => hc1 h, le_of_not_lt hc2,
      le_of_not_lt hc3, le_of_not_lt hc4⟩ hnh
  · exact absurd ⟨fun h => hc1 h, le_of_not_lt hc2,
      le_of_not_lt hc3, le_of_not_lt hc4⟩ hnh
  · rfl

theorem gkpInnerStep_hit_fresh (scale : ℚ) (l : List Event) {idx j : ℕ}
    (hhit : gkpHit scale l idx j) (st : GKPState)
    (hd : st.dep.getD j false = false)
    (h1 : j < st.dep.length) (h2 : j < st.parent.length)
    (h3 : j < st.pdt.length) :
    (gkpInnerStep scale l idx st j).dep.getD j false = true ∧
    (gkpInnerStep scale l idx st j).parent.getD j none = some idx ∧
    (gkpInnerStep scale l idx st j).pdt.getD j ⊤ =
      (dtAbsSecs l idx j : WithTop ℚ) := by
  obtain ⟨hne, hmag, htw, hdw⟩ := hhit
  unfold gkpInnerStep
  rw [if_neg hne, if_neg (not_lt_of_le hmag), if_neg (not_lt_of_le htw),
    if_neg (not_lt_of_le hdw), if_pos hd]
  exact ⟨getD_set_self _ _ _ h1, getD_set_self _ _ _ h2,
    getD_set_self _ _ _ h3⟩

theorem gkpInnerStep_hit_reassign (scale : ℚ) (l : List Event) {idx j : ℕ}
    (hhit : gkpHit scale l idx j) (st : GKPState)
    (hd : st.dep.getD j false = true)
    (hlt : (dtAbsSecs l idx j : WithTop ℚ) < st.pdt.getD j ⊤)
    (h2 : j < st.parent.length) (h3 : j < st.pdt.length) :
    (gkpInnerStep scale l idx st j).dep.getD j false = true ∧
    (gkpInnerStep scale l idx st j).parent.getD j none = some idx ∧
    (gkpInnerStep scale l idx st j).pdt.getD j ⊤ =
      (dtAbsSecs l idx j : WithTop ℚ) := by
  obtain ⟨hne, hmag, htw, hdw⟩ := hhit
  unfold gkpInnerStep
  rw [if_neg hne, if_neg (not_lt_of_le hmag), if_neg (not_lt_of_le htw),
    if_neg (not_lt_of_le hdw), if_neg (by rw [hd]; exact (by decide : ¬ true = false)),
    if_pos hlt]
  exact ⟨hd, getD_set_self _ _ _ h2, getD_set_self _ _ _ h3⟩

theorem gkpInnerStep_hit_keep (scale : ℚ) (l : List Event) {idx j : ℕ}
    (st : GKPState) (hd : st.dep.getD j false = true)
    (hge : ¬ (dtAbsSecs l idx j : WithTop ℚ) < st.pdt.getD j ⊤) :
    gkpInnerStep scale l idx st j = st := by
  unfold gkpInnerStep
  split_ifs with hc1 hc2 hc3 hc4 hc5
  · rfl
  · rfl
  · rfl
  · rfl
  · rw [hd] at hc5
    exact absurd hc5 (by decide)
  · rfl

theorem gkpInnerStep_dep_true (scale : ℚ) (l : List Event) (idx j : ℕ)
    (st : GKPState) (hd : st.dep.getD j false = true) :
    (gkpInnerStep scale l idx st j).dep.getD j false = true := by
  by_cases hhit : gkpHit scale l idx j
  · by_cases hlt : (dtAbsSecs l idx j : WithTop ℚ) < st.pdt.getD j ⊤
    · by_cases h2 : j < st.parent.length
      · by_cases h3 : j < st.pdt.length
        · exact (gkpInnerStep_hit_reassign scale l hhit st hd hlt h2 h3).1
        · obtain ⟨hne, hmag, htw, hdw⟩ := hhit
          unfold gkpInnerStep
          rw [if_neg hne, if_neg (not_lt_of_le hmag), if_neg (not_lt_of_le htw),
            if_neg (not_lt_of_le hdw),
            if_neg (by rw [hd]; exact (by decide : ¬ true = false)),
            if_pos hlt]
          exact hd
      · obtain ⟨hne, hmag, htw, hdw⟩ := hhit
        unfold gkpInnerStep
        rw [if_neg hne, if_neg (not_lt_of_le hmag), if_neg (not_lt_of_le htw),
          if_neg (not_lt_of_le hdw),
          if_neg (by rw [hd]; exact (by decide : ¬ true = false)),
          if_pos hlt]
        exact hd
    · rw [gkpInnerStep_hit_keep scale l st hd hlt]
      exact hd
  · rw [gkpInnerStep_not_hit scale l hhit st]
    exact hd

end NornirUrd

namespace NornirUrd

/-- Existential slot lemma: over a duplicate-free scan containing `j`, the
`j`-projection of the fold result equals the `j`-projection of the single
`j` step applied to some state slot-equivalent to the initial one. -/
theorem foldl_slot_ex {σ β : Type} (step : σ → ℕ → σ) (proj : σ → β) (j : ℕ)
    (hskip : ∀ st k, k ≠ j → proj (step st k) = proj st) :
    ∀ (L : List ℕ), L.Nodup → j ∈ L → ∀ st,
      ∃ st0, proj st0 = proj st ∧
        proj (L.foldl step st) = proj (step st0 j) := by
  intro L
  induction L with
  | nil => intro _ h; exact absurd h (List.not_mem_nil j)
  | cons a L ih =>
    intro hnd hj st
    rcases List.mem_cons.mp hj with rfl | hjL
    · refine ⟨st, rfl, ?_⟩
      rw [List.foldl_cons,
        foldl_slot_of_not_mem step proj j hskip L (List.nodup_cons.mp hnd).1]
    · obtain ⟨st0, he, hr⟩ := ih (List.nodup_cons.mp hnd).2 hjL (step st a)
      have ha : a ≠ j := fun h => (List.nodup_cons.mp hnd).1 (h ▸ hjL)
      exact ⟨st0, he.trans (hskip st a ha), by rw [List.foldl_cons]; exact hr⟩

theorem gkpInnerStep_parent_cases (scale : ℚ) (l : List Event) (idx j : ℕ)
    (st : GKPState) :
    (gkpInnerStep scale l idx st j).parent.getD j none =
      st.parent.getD j none ∨
    (gkpInnerStep scale l idx st j).parent.getD j none = some idx := by
  unfold gkpInnerStep
  split_ifs
  · exact Or.inl rfl
  · exact Or.inl rfl
  · exact Or.inl rfl
  · exact Or.inl rfl
  · by_cases hp : j < st.parent.length
    · exact Or.inr (getD_set_self _ _ _ hp)
    · exact Or.inl (by rw [List.set_eq_of_length_le (le_of_not_lt hp)])
  · by_cases hp : j < st.parent.length
    · exact Or.inr (getD_set_self _ _ _ hp)
    · exact Or.inl (by rw [List.set_eq_of_length_le (le_of_not_lt hp)])
  · exact Or.inl rfl

theorem gkpInner_lengths (scale : ℚ) (l : List Event) (idx : ℕ)
    (st : GKPState) :
    (gkpInner scale l idx st).dep.length = st.dep.length ∧
    (gkpInner scale l idx st).parent.length = st.parent.length ∧
    (gkpInner scale l idx st).pdt.length = st.pdt.length := by
  unfold gkpInner
  generalize List.range l.length = L
  induction L generalizing st with
  | nil => exact ⟨rfl, rfl, rfl⟩
  | cons a L ih =>
    rw [List.foldl_cons]
    obtain ⟨ha, hb, hc⟩ := ih (gkpInnerStep scale l idx st a)
    obtain ⟨hd, he, hf⟩ := gkpInnerStep_lengths scale l idx st a
    exact ⟨ha.trans hd, hb.trans he, hc.trans hf⟩

/-- Existential slot form of the parent-attributing inner scan. -/
theorem gkpInner_slot_ex (scale : ℚ) (l : List Event) (idx j : ℕ)
    (hj : j < l.length) (st : GKPState) :
    ∃ st0, gkpSlot j st0 = gkpSlot j st ∧
      gkpSlot j (gkpInner scale l idx st) =
        gkpSlot j (gkpInnerStep scale l idx st0 j) :=
  foldl_slot_ex (gkpInnerStep scale l idx) (gkpSlot j) j
    (fun st2 k hk => gkpInnerStep_slot_ne scale l idx st2 hk)
    (List.range l.length) (List.nodup_range l.length)
    (List.mem_range.mpr hj) st

theorem gkpInner_slot_out (scale : ℚ) (l : List Event) {idx j : ℕ}
    (hj : l.length ≤ j) (st : GKPState) :
    gkpSlot j (gkpInner scale l idx st) = gkpSlot j st :=
  foldl_slot_of_not_mem (gkpInnerStep scale l idx) (gkpSlot j) j
    (fun st2 k hk => gkpInnerStep_slot_ne scale l idx st2 hk)
    (List.range l.length)
    (fun hm => absurd (List.mem_range.mp hm) (not_lt_of_le hj)) st

theorem gkpSlot_dep {j : ℕ} {st st2 : GKPState}
    (h : gkpSlot j st = gkpSlot j st2) :
    st.dep.getD j false = st2.dep.getD j false :=
  congrArg (fun x => x.1.1) h

theorem gkpSlot_parent {j : ℕ} {st st2 : GKPState}
    (h : gkpSlot j st = gkpSlot j st2) :
    st.parent.getD j none = st2.parent.getD j none :=
  congrArg (fun x => x.1.2.1) h

theorem gkpSlot_pdt {j : ℕ} {st st2 : GKPState}
    (h : gkpSlot j st = gkpSlot j st2) :
    st.pdt.getD j ⊤ = st2.pdt.getD j ⊤ :=
  congrArg (fun x => x.1.2.2) h

theorem gkpSlot_lens {j : ℕ} {st st2 : GKPState}
    (h : gkpSlot j st = gkpSlot j st2) :
    st.dep.length = st2.dep.length ∧ st.parent.length = st2.parent.length ∧
    st.pdt.length = st2.pdt.length :=
  ⟨congrArg (fun x => x.2.1) h, congrArg (fun x => x.2.2.1) h,
    congrArg (fun x => x.2.2.2) h⟩

/-- The inner scan never unmarks a dependent event. -/
theorem gkpInner_dep_true (scale : ℚ) (l : List Event) (idx j : ℕ)
    (st : GKPState) (hd : st.dep.getD j false = true) :
    (gkpInner scale l idx st).dep.getD j false = true := by
  by_cases hj : j < l.length
  · obtain ⟨st0, he, hr⟩ := gkpInner_slot_ex scale l idx j hj st
    rw [gkpSlot_dep hr]
    exact gkpInnerStep_dep_true scale l idx j st0 ((gkpSlot_dep he).trans hd)
  · rw [gkpSlot_dep (gkpInner_slot_out scale l (le_of_not_lt hj) st)]
    exact hd

/-- A miss leaves the whole slot unchanged. -/
theorem gkpInner_not_hit (scale : ℚ) (l : List Event) {idx j : ℕ}
    (hnh : ¬ gkpHit scale l idx j) (st : GKPState) :
    gkpSlot j (gkpInner scale l idx st) = gkpSlot j st := by
  by_cases hj : j < l.length
  · obtain ⟨st0, he, hr⟩ := gkpInner_slot_ex scale l idx j hj st
    rw [hr, gkpInnerStep_not_hit scale l hnh st0, he]
  · exact gkpInner_slot_out scale l (le_of_not_lt hj) st

/-- A hit on a not-yet-dependent event marks it and attributes the
candidate as parent. -/
theorem gkpInner_fresh (scale : ℚ) (l : List Event) {idx j : ℕ}
    (hhit : gkpHit scale l idx j) (st : GKPState)
    (hd : st.dep.getD j false = false) (hj : j < l.length)
    (h1 : st.dep.length = l.length) (h2 : st.parent.length = l.length)
    (h3 : st.pdt.length = l.length) :
    (gkpInner scale l idx st).dep.getD j false = true ∧
    (gkpInner scale l idx st).parent.getD j none = some idx ∧
    (gkpInner scale l idx st).pdt.getD j ⊤ = (dtAbsSecs l idx j : WithTop ℚ) := by
  obtain ⟨st0, he, hr⟩ := gkpInner_slot_ex scale l idx j hj st
  obtain ⟨hl1, hl2, hl3⟩ := gkpSlot_lens he
  have hstep := gkpInnerStep_hit_fresh scale l hhit st0
    ((gkpSlot_dep he).trans hd) (by rw [hl1, h1]; exact hj)
    (by rw [hl2, h2]; exact hj) (by rw [hl3, h3]; exact hj)
  exact ⟨(gkpSlot_dep hr).trans hstep.1, (gkpSlot_parent hr).trans hstep.2.1,
    (gkpSlot_pdt hr).trans hstep.2.2⟩

/-- A hit on an already dependent event reattributes the parent exactly when
the candidate is temporally strictly closer. -/
theorem gkpInner_reassign (scale : ℚ) (l : List Event) {idx j : ℕ}
    (hhit : gkpHit scale l idx j) (st : GKPState)
    (hd : st.dep.getD j false = true) (hj : j < l.length)
    (hlt : (dtAbsSecs l idx j : WithTop ℚ) < st.pdt.getD j ⊤)
    (h2 : st.parent.length = l.length) (h3 : st.pdt.length = l.length) :
    (gkpInner scale l idx st).dep.getD j false = true ∧
    (gkpInner scale l idx st).parent.getD j none = some idx ∧
    (gkpInner scale l idx st).pdt.getD j ⊤ = (dtAbsSecs l idx j : WithTop ℚ) := by
  obtain ⟨st0, he, hr⟩ := gkpInner_slot_ex scale l idx j hj st
  obtain ⟨hl1, hl2, hl3⟩ := gkpSlot_lens he
  have hstep := gkpInnerStep_hit_reassign scale l hhit st0
    ((gkpSlot_dep he).trans hd) (by rw [gkpSlot_pdt he]; exact hlt)
    (by rw [hl2, h2]; exact hj) (by rw [hl3, h3]; exact hj)
  exact ⟨(gkpSlot_dep hr).trans hstep.1, (gkpSlot_parent hr).trans hstep.2.1,
    (gkpSlot_pdt hr).trans hstep.2.2⟩

/-- A hit on an already dependent event with a temporally no-closer candidate
leaves the slot unchanged. -/
theorem gkpInner_keep (scale : ℚ) (l : List Event) (idx j : ℕ)
    (st : GKPState) (hd : st.dep.getD j false = true)
    (hge : ¬ (dtAbsSecs l idx j : WithTop ℚ) < st.pdt.getD j ⊤) :
    gkpSlot j (gkpInner scale l idx st) = gkpSlot j st := by
  by_cases hj : j < l.length
  · obtain ⟨st0, he, hr⟩ := gkpInner_slot_ex scale l idx j hj st
    rw [hr, gkpInnerStep_hit_keep scale l st0 ((gkpSlot_dep he).trans hd)
      (by rw [gkpSlot_pdt he]; exact hge), he]
  · exact gkpInner_slot_out scale l (le_of_not_lt hj) st

/-- The parent pointer after a pass is the old pointer or the candidate. -/
theorem gkpInner_parent_cases (scale : ℚ) (l : List Event) (idx j : ℕ)
    (st : GKPState) :
    (gkpInner scale l idx st).parent.getD j none = st.parent.getD j none ∨
    (gkpInner scale l idx st).parent.getD j none = some idx := by
  by_cases hj : j < l.length
  · obtain ⟨st0, he, hr⟩ := gkpInner_slot_ex scale l idx j hj st
    rcases gkpInnerStep_parent_cases scale l idx j st0 with h | h
    · exact Or.inl (((gkpSlot_parent hr).trans h).trans (gkpSlot_parent he))
    · exact Or.inr ((gkpSlot_parent hr).trans h)
  · exact Or.inl (gkpSlot_parent (gkpInner_slot_out scale l (le_of_not_lt hj) st))

/-- A hit always leaves the event dependent after the pass. -/
theorem gkpInner_dep_hit (scale : ℚ) (l : List Event) {idx j : ℕ}
    (hhit : gkpHit scale l idx j) (st : GKPState) (hj : j < l.length)
    (h1 : st.dep.length = l.length) (h2 : st.parent.length = l.length)
    (h3 : st.pdt.length = l.length) :
    (gkpInner scale l idx st).dep.getD j false = true := by
  by_cases hd : st.dep.getD j false = true
  · exact gkpInner_dep_true scale l idx j st hd
  · exact (gkpInner_fresh scale l hhit st
      (Bool.not_eq_true _ ▸ Bool.of_not_eq_true hd) hj h1 h2 h3).1

end NornirUrd

namespace NornirUrd

theorem getD_replicate_any {α : Type} {n j : ℕ} (a : α) :
    (List.replicate n a).getD j a = a := by
  rw [List.getD_eq_getElem?_getD, List.getElem?_replicate]
  split_ifs <;> rfl

/-- Haversine distance is symmetric in its two points. -/
theorem haversine_km_symm (lat1 lon1 lat2 lon2 : ℚ) :
    haversine_km lat1 lon1 lat2 lon2 = haversine_km lat2 lon2 lat1 lon1 := by
  unfold haversine_km
  dsimp only
  have hsin : ∀ x y : ℝ, Real.sin ((x - y) / 2) ^ 2 =
      Real.sin ((y - x) / 2) ^ 2 := by
    intro x y
    rw [show (x - y) / 2 = -((y - x) / 2) by ring, Real.sin_neg, neg_sq]
  rw [hsin (radiansQ lat2) (radiansQ lat1), hsin (radiansQ lon2) (radiansQ lon1),
    mul_comm (Real.cos (radiansQ lat1)) (Real.cos (radiansQ lat2))]

theorem havAt_symm (l : List Event) (i j : ℕ) : havAt l i j = havAt l j i := by
  unfold havAt
  exact haversine_km_symm _ _ _ _

theorem dtAbsSecs_symm (l : List Event) (i j : ℕ) :
    dtAbsSecs l i j = dtAbsSecs l j i := by
  unfold dtAbsSecs dtSecs
  rw [show (timeAt l i - timeAt l j : ℤ) = -(timeAt l j - timeAt l i) by ring]
  push_cast
  rw [neg_div, abs_neg]

/-- Hits between equal-magnitude events are symmetric: the windows agree and
the time and distance tests are symmetric. -/
theorem gkpHit_symm (scale : ℚ) (l : List Event) {i j : ℕ}
    (hmag : magAt l i = magAt l j) (h : gkpHit scale l i j) :
    gkpHit scale l j i := by
  obtain ⟨hne, hle, hw1, hw2⟩ := h
  refine ⟨fun hh => hne hh.symm, hmag.le, ?_, ?_⟩
  · rw [dtAbsSecs_symm, ← hmag]
    exact hw1
  · rw [havAt_symm, ← hmag]
    exact hw2

/-- Array-length side condition of the parent-attributing state. -/
def gkpGoodLens (l : List Event) (st : GKPState) : Prop :=
  st.dep.length = l.length ∧ st.parent.length = l.length ∧
  st.pdt.length = l.length

/-- Main invariant of the parent-attributing fold with remaining candidate
list `R`: every assigned parent is in range, currently independent, and
cannot be flagged by any still-live candidate; dependent events always carry
a parent. -/
def gkpInv (scale : ℚ) (l : List Event) (R : List ℕ) (st : GKPState) : Prop :=
  (∀ j p, st.parent.getD j none = some p → p < l.length ∧
    st.dep.getD p false = false ∧
    ∀ k ∈ R, st.dep.getD k false = false → ¬ gkpHit scale l k p) ∧
  (∀ j, st.dep.getD j false = true → (st.parent.getD j none).isSome) ∧
  gkpGoodLens l st

theorem gkpInv_weaken (scale : ℚ) (l : List Event) {R : List ℕ} {c : ℕ}
    {st : GKPState} (h : gkpInv scale l (c :: R) st) : gkpInv scale l R st := by
  obtain ⟨h1, h2, h3⟩ := h
  exact ⟨fun j p hp => ⟨(h1 j p hp).1, (h1 j p hp).2.1,
    fun k hk => (h1 j p hp).2.2 k (List.mem_cons_of_mem c hk)⟩, h2, h3⟩

theorem gkpFold_inv (scale : ℚ) (l : List Event) :
    ∀ (R : List ℕ) (st : GKPState), R.Nodup → (∀ k ∈ R, k < l.length) →
      List.Pairwise (keyIdxLe (fun i => OrderDual.toDual (magAt l i))) R →
      gkpInv scale l R st →
      gkpInv scale l [] (R.foldl (gkpCandidate scale l) st) := by
  intro R
  induction R with
  | nil => intro st _ _ _ h; exact h
  | cons c R2 ih =>
    intro st hnd hbd hpw hinv
    rw [List.foldl_cons]
    by_cases hdc : st.dep.getD c false = true
    · have hstep : gkpCandidate scale l st c = st := by
        unfold gkpCandidate
        rw [if_pos hdc]
      rw [hstep]
      exact ih st (List.nodup_cons.mp hnd).2
        (fun k hk => hbd k (List.mem_cons_of_mem c hk))
        (List.pairwise_cons.mp hpw).2 (gkpInv_weaken scale l hinv)
    · have hdcf : st.dep.getD c false = false := by
        cases hv : st.dep.getD c false
        · rfl
        · exact absurd hv hdc
      have hstep : gkpCandidate scale l st c = gkpInner scale l c st := by
        unfold gkpCandidate
        rw [if_neg hdc]
      rw [hstep]
      obtain ⟨hP, hS, hl1, hl2, hl3⟩ := hinv
      have hcn : c < l.length := hbd c (List.mem_cons_self c R2)
      have hlens2 := gkpInner_lengths scale l c st
      -- dependency flags are monotone through the pass (contrapositive form)
      have hmono : ∀ k, (gkpInner scale l c st).dep.getD k false = false →
          st.dep.getD k false = false := by
        intro k hk
        cases hv : st.dep.getD k false
        · rfl
        · rw [gkpInner_dep_true scale l c k st hv] at hk
          exact absurd hk (by decide)
      have hdc1 : (gkpInner scale l c st).dep.getD c false = false := by
        rw [gkpSlot_dep (gkpInner_not_hit scale l (fun hh => hh.1 rfl) st)]
        exact hdcf
      -- no still-live candidate can ever flag the running candidate c
      have hprotc : ∀ k ∈ R2,
          (gkpInner scale l c st).dep.getD k false = false →
          ¬ gkpHit scale l k c := by
        intro k hk hkf hhit
        have hck : keyIdxLe (fun i => OrderDual.toDual (magAt l i)) c k :=
          (List.pairwise_cons.mp hpw).1 k hk
        have hmageq : magAt l k = magAt l c := by
          rcases hck with hlt | ⟨heq, _⟩
          · rw [OrderDual.toDual_lt_toDual] at hlt
            exact absurd hhit.2.1 (not_le_of_lt hlt)
          · exact (OrderDual.toDual_inj.mp heq).symm
        have hsym : gkpHit scale l c k := gkpHit_symm scale l hmageq hhit
        have hkn : k < l.length := hbd k (List.mem_cons_of_mem c hk)
        rw [gkpInner_dep_hit scale l hsym st hkn hl1 hl2 hl3] at hkf
        exact absurd hkf (by decide)
      have hinv2 : gkpInv scale l R2 (gkpInner scale l c st) := by
        refine ⟨?_, ?_, hlens2.1.trans hl1, hlens2.2.1.trans hl2,
          hlens2.2.2.trans hl3⟩
        · intro j p hp
          rcases gkpInner_parent_cases scale l c j st with hc | hc
          · rw [hp] at hc
            obtain ⟨hpn, hpf, hpk⟩ := hP j p hc.symm
            have hnhcp : ¬ gkpHit scale l c p :=
              hpk c (List.mem_cons_self c R2) hdcf
            have hslot := gkpInner_not_hit scale l hnhcp st
            refine ⟨hpn, by rw [gkpSlot_dep hslot]; exact hpf, ?_⟩
            intro k hk hkf
            exact hpk k (List.mem_cons_of_mem c hk) (hmono k hkf)
          · rw [hp] at hc
            have hpc : p = c := by
              injection hc.symm with hh
              exact hh.symm
            subst hpc
            exact ⟨hcn, hdc1, hprotc⟩
        · intro j hj
          by_cases hold : st.dep.getD j false = true
          · rcases gkpInner_parent_cases scale l c j st with hc | hc
            · rw [hc]
              exact hS j hold
            · rw [hc]
              rfl
          · have holdf : st.dep.getD j false = false := by
              cases hv : st.dep.getD j false
              · rfl
              · exact absurd hv hold
            by_cases hjn : j < l.length
            · by_cases hhit : gkpHit scale l c j
              · rw [(gkpInner_fresh scale l hhit st holdf hjn hl1 hl2 hl3).2.1]
                rfl
              · rw [gkpSlot_dep (gkpInner_not_hit scale l hhit st), holdf] at hj
                exact absurd hj (by decide)
            · rw [gkpSlot_dep (gkpInner_slot_out scale l (le_of_not_lt hjn) st),
                holdf] at hj
              exact absurd hj (by decide)
      exact ih (gkpInner scale l c st) (List.nodup_cons.mp hnd).2
        (fun k hk => hbd k (List.mem_cons_of_mem c hk))
        (List.pairwise_cons.mp hpw).2 hinv2

/-- Parent coverage of the final state of `decluster_with_parents`. -/
theorem gkpFinal_parent_ok (events : List Event) (scale : ℚ) :
    (∀ j p, (gkpFinal scale events).parent.getD j none = some p →
      p < events.length ∧ (gkpFinal scale events).dep.getD p false = false) ∧
    (∀ j, (gkpFinal scale events).dep.getD j false = true →
      ((gkpFinal scale events).parent.getD j none).isSome) := by
  have hinit : gkpInv scale events (indicesByMag events)
      (gkpInit events.length) := by
    refine ⟨?_, ?_, ?_, ?_, ?_⟩
    · intro j p hp
      rw [show (gkpInit events.length).parent = List.replicate events.length none
        from rfl, getD_replicate_any] at hp
      exact absurd hp (by simp)
    · intro j hj
      rw [show (gkpInit events.length).dep = List.replicate events.length false
        from rfl, getD_replicate_false] at hj
      exact absurd hj (by decide)
    · exact List.length_replicate _ _
    · exact List.length_replicate _ _
    · exact List.length_replicate _ _
  have hfin := gkpFold_inv scale events (indicesByMag events)
    (gkpInit events.length) (sortIdx_nodup _ _)
    (fun k hk => (sortIdx_mem _ _ _).mp hk) (sortIdx_sorted _ _) hinit
  exact ⟨fun j p hp => ⟨(hfin.1 j p hp).1, (hfin.1 j p hp).2.1⟩, hfin.2.1⟩

end NornirUrd

namespace NornirUrd

theorem decluster_with_parents_mem_main (events : List Event) (scale : ℚ)
    {i : ℕ} (hi : i < events.length)
    (hf : (gkpFinal scale events).dep.getD i false = false) :
    evAt events i ∈ (decluster_with_parents events scale).1 := by
  unfold decluster_with_parents
  rw [isEmpty_false_of_lt hi]
  simp only [Bool.false_eq_true, if_false]
  exact mem_filterEnum_map
    (fun k => !(gkpFinal scale events).dep.getD k false) hi
    (by simp [← List.getD_eq_getElem?_getD, hf])

/-- C9: in `decluster_with_parents`, every assigned parent names an event
that is itself classified as a Mainshock: the final parent pointers always
reference in-range, independent events; every dependent event carries a
parent; and each output Aftershock's `parent_id` is the `usgs_id` of an
output Mainshock. -/
theorem claim_C9 (events : List Event) (window_scale : ℚ) (hwf : WFCat events) :
    (∀ j p, (gkpFinal window_scale events).parent.getD j none = some p →
      p < events.length ∧
      (gkpFinal window_scale events).dep.getD p false = false) ∧
    (∀ j, (gkpFinal window_scale events).dep.getD j false = true →
      ((gkpFinal window_scale events).parent.getD j none).isSome) ∧
    (∀ a ∈ (decluster_with_parents events window_scale).2,
      a.parent_id ∈
        (decluster_with_parents events window_scale).1.map Event.usgs_id) := by
  obtain ⟨h1, h2⟩ := gkpFinal_parent_ok events window_scale
  refine ⟨h1, h2, ?_⟩
  intro a ha
  by_cases hemp : events.isEmpty
  · unfold decluster_with_parents at ha
    rw [if_pos hemp] at ha
    exact absurd ha (List.not_mem_nil a)
  · unfold decluster_with_parents at ha
    rw [Bool.not_eq_true] at hemp
    rw [hemp] at ha
    simp only [Bool.false_eq_true, if_false] at ha
    rcases List.mem_map.mp ha with ⟨q, hqf, hqa⟩
    have hqmem := List.mem_filter.mp hqf
    have hqn : q.1 < events.length := (mem_enum_evAt events hqmem.1).1
    have hdep : (gkpFinal window_scale events).dep.getD q.1 false = true :=
      hqmem.2
    rcases Option.isSome_iff_exists.mp (h2 q.1 hdep) with ⟨p, hp⟩
    have hpid : a.parent_id = (evAt events p).usgs_id := by
      rw [← hqa]
      unfold gkpAftershockAt
      rw [hp]
      rfl
    obtain ⟨hpn, hpf⟩ := h1 q.1 p hp
    rw [hpid]
    exact List.mem_map_of_mem Event.usgs_id
      (decluster_with_parents_mem_main events window_scale hpn hpf)

/-- C9 witness: the parent-coverage property on a concrete catalog. -/
theorem claim_C9_witness :
    WFCat demoCat ∧
    (∀ a ∈ (decluster_with_parents demoCat 1).2,
      a.parent_id ∈ (decluster_with_parents demoCat 1).1.map Event.usgs_id) :=
  ⟨by decide, (claim_C9 demoCat 1 (by decide)).2.2⟩

end NornirUrd

namespace NornirUrd

theorem gk_window_scaled_one (m : ℚ) : gk_window_scaled m 1 = gk_window m := by
  unfold gk_window_scaled
  dsimp only
  rw [Rat.cast_one, mul_one, mul_one]

theorem ten_rpow_28_ge_600 : (600 : ℝ) ≤ (10 : ℝ) ^ ((2.8 : ℝ)) := by
  have h10 : (0 : ℝ) ≤ 10 := by norm_num
  have hpos : (0 : ℝ) < (10 : ℝ) ^ ((2.8 : ℝ)) :=
    Real.rpow_pos_of_pos (by norm_num) _
  have hpow : ((10 : ℝ) ^ ((2.8 : ℝ))) ^ (5 : ℕ) = (10 : ℝ) ^ (14 : ℕ) := by
    rw [← Real.rpow_natCast ((10 : ℝ) ^ ((2.8 : ℝ))) 5, ← Real.rpow_mul h10,
      ← Real.rpow_natCast (10 : ℝ) 14]
    norm_num
  refine le_of_pow_le_pow_left (by norm_num : (5 : ℕ) ≠ 0) hpos.le ?_
  rw [hpow]
  norm_num

theorem c3_bound1 : (10 : ℝ) ^ ((2.9629 : ℝ)) < 1000 := by
  have h1000 : (1000 : ℝ) = (10 : ℝ) ^ ((3 : ℝ)) := by
    rw [show ((3 : ℝ)) = ((3 : ℕ) : ℝ) by norm_num, Real.rpow_natCast]
    norm_num
  rw [h1000]
  exact (Real.rpow_lt_rpow_left_iff (by norm_num)).mpr (by norm_num)

theorem c3_bound2 : (600 : ℝ) ≤ (10 : ℝ) ^ ((2.9629 : ℝ)) :=
  ten_rpow_28_ge_600.trans
    ((Real.rpow_le_rpow_left_iff (by norm_num)).mpr (by norm_num))

theorem c3_bound3 : (400 : ℝ) ≤ (10 : ℝ) ^ ((2.9565 : ℝ)) := by
  have h1 : (10 : ℝ) ^ ((2.8 : ℝ)) ≤ (10 : ℝ) ^ ((2.9565 : ℝ)) :=
    (Real.rpow_le_rpow_left_iff (by norm_num)).mpr (by norm_num)
  linarith [ten_rpow_28_ge_600]

/-- Overlap-resolution scenario: mainshock A (M7.0, t = 0). -/
def c3A : Event := ⟨"A", "2030-01-01T00:00:00Z", 35, 139, 7⟩

/-- Mainshock B (M6.8, t = +1000 days). -/
def c3B : Event := ⟨"B", "2032-09-27T00:00:00Z", 35, 139, 6.8⟩

/-- Dependent event C (M5.0, t = +600 days), within both windows. -/
def c3C : Event := ⟨"C", "2031-08-24T00:00:00Z", 35, 139, 5⟩

/-- Overlap-resolution catalog. -/
def c3Cat : List Event := [c3A, c3B, c3C]

theorem c3_t01 : timeAt c3Cat 1 - timeAt c3Cat 0 = 86400000000000 := by decide

theorem c3_t02 : timeAt c3Cat 2 - timeAt c3Cat 0 = 51840000000000 := by decide

theorem c3_t12 : timeAt c3Cat 2 - timeAt c3Cat 1 = -34560000000000 := by decide

theorem c3_d01 : dtAbsSecs c3Cat 0 1 = 86400000 := by
  rw [dtAbsSecs_of_timeAt c3_t01]
  norm_num

theorem c3_d02 : dtAbsSecs c3Cat 0 2 = 51840000 := by
  rw [dtAbsSecs_of_timeAt c3_t02]
  norm_num

theorem c3_d12 : dtAbsSecs c3Cat 1 2 = 34560000 := by
  rw [dtAbsSecs_of_timeAt c3_t12]
  norm_num

theorem c3_dz : ∀ i j : ℕ, i < 3 → j < 3 → havAt c3Cat i j = 0 := by
  intro i j hi hj
  have hz : ∀ k : ℕ, k < 3 → (evAt c3Cat k).latitude = 35 ∧
      (evAt c3Cat k).longitude = 139 := by
    intro k hk
    match k, hk with
    | 0, _ => exact ⟨rfl, rfl⟩
    | 1, _ => exact ⟨rfl, rfl⟩
    | 2, _ => exact ⟨rfl, rfl⟩
  unfold havAt
  rw [(hz i hi).1, (hz i hi).2, (hz j hj).1, (hz j hj).2]
  exact haversine_km_self 35 139

end NornirUrd

namespace NornirUrd

theorem c3_wA : gk_window_scaled (magAt c3Cat 0) 1 =
    ((10 : ℝ) ^ ((1.8496 : ℝ)), (10 : ℝ) ^ ((2.9629 : ℝ))) := by
  rw [show magAt c3Cat 0 = 7 from rfl, gk_window_scaled_one]
  unfold gk_window
  rw [if_pos (by norm_num : (6.5 : ℚ) ≤ 7)]
  dsimp only
  rw [show ((0.1238 * (7 : ℚ) + 0.983 : ℚ) : ℝ) = (1.8496 : ℝ) by norm_num,
    show ((0.032 * (7 : ℚ) + 2.7389 : ℚ) : ℝ) = (2.9629 : ℝ) by norm_num]

theorem c3_wB : gk_window_scaled (magAt c3Cat 1) 1 =
    ((10 : ℝ) ^ ((1.82484 : ℝ)), (10 : ℝ) ^ ((2.9565 : ℝ))) := by
  rw [show magAt c3Cat 1 = 6.8 from rfl, gk_window_scaled_one]
  unfold gk_window
  rw [if_pos (by norm_num : (6.5 : ℚ) ≤ 6.8)]
  dsimp only
  rw [show ((0.1238 * (6.8 : ℚ) + 0.983 : ℚ) : ℝ) = (1.82484 : ℝ) by norm_num,
    show ((0.032 * (6.8 : ℚ) + 2.7389 : ℚ) : ℝ) = (2.9565 : ℝ) by norm_num]

theorem c3_hit02 : gkpHit 1 c3Cat 0 2 := by
  refine ⟨by decide, by decide, ?_, ?_⟩
  · rw [c3_wA, c3_d02]
    have h := mul_le_mul_of_nonneg_right c3_bound2
      (by norm_num : (0 : ℝ) ≤ 86400)
    push_cast
    linarith
  · rw [c3_wA, c3_dz 0 2 (by norm_num) (by norm_num)]
    exact (Real.rpow_pos_of_pos (by norm_num) _).le

theorem c3_hit12 : gkpHit 1 c3Cat 1 2 := by
  refine ⟨by decide, by show (5 : ℚ) ≤ (6.8 : ℚ); norm_num, ?_, ?_⟩
  · rw [c3_wB, c3_d12]
    have h := mul_le_mul_of_nonneg_right c3_bound3
      (by norm_num : (0 : ℝ) ≤ 86400)
    push_cast
    linarith
  · rw [c3_wB, c3_dz 1 2 (by norm_num) (by norm_num)]
    exact (Real.rpow_pos_of_pos (by norm_num) _).le

theorem c3_nohit01 : ¬ gkpHit 1 c3Cat 0 1 := by
  intro hh
  have hw := hh.2.2.1
  rw [c3_wA, c3_d01] at hw
  have h := mul_lt_mul_of_pos_right c3_bound1
    (by norm_num : (0 : ℝ) < 86400)
  push_cast at hw
  linarith

theorem c3_nohit10 : ¬ gkpHit 1 c3Cat 1 0 := by
  intro hh
  have hm : (7 : ℚ) ≤ (6.8 : ℚ) := hh.2.1
  norm_num at hm

end NornirUrd

namespace NornirUrd

theorem c3_dts12 : dtSecs c3Cat 1 2 = -34560000 := by
  unfold dtSecs
  rw [c3_t12]
  norm_num

theorem c3_idx : indicesByMag c3Cat = [0, 1, 2] := by
  have hr12 : keyIdxLe (fun i => OrderDual.toDual (magAt c3Cat i)) 1 2 :=
    Or.inl (by
      show OrderDual.toDual (magAt c3Cat 1) < OrderDual.toDual (magAt c3Cat 2)
      rw [OrderDual.toDual_lt_toDual]
      show (5 : ℚ) < (6.8 : ℚ)
      norm_num)
  have hr01 : keyIdxLe (fun i => OrderDual.toDual (magAt c3Cat i)) 0 1 :=
    Or.inl (by
      show OrderDual.toDual (magAt c3Cat 0) < OrderDual.toDual (magAt c3Cat 1)
      rw [OrderDual.toDual_lt_toDual]
      show (6.8 : ℚ) < (7 : ℚ)
      norm_num)
  unfold indicesByMag sortIdx
  rw [show List.range c3Cat.length = [0, 1, 2] from rfl]
  simp only [List.insertionSort, List.orderedInsert]
  rw [if_pos hr12]
  simp only [List.orderedInsert]
  rw [if_pos hr01]

theorem c3_S1_len :
    (gkpInner 1 c3Cat 0 (gkpInit c3Cat.length)).dep.length = c3Cat.length ∧
    (gkpInner 1 c3Cat 0 (gkpInit c3Cat.length)).parent.length = c3Cat.length ∧
    (gkpInner 1 c3Cat 0 (gkpInit c3Cat.length)).pdt.length = c3Cat.length := by
  obtain ⟨h1, h2, h3⟩ := gkpInner_lengths 1 c3Cat 0 (gkpInit c3Cat.length)
  exact ⟨h1.trans (List.length_replicate _ _), h2.trans (List.length_replicate _ _),
    h3.trans (List.length_replicate _ _)⟩

theorem c3_S1_2 :
    (gkpInner 1 c3Cat 0 (gkpInit c3Cat.length)).dep.getD 2 false = true ∧
    (gkpInner 1 c3Cat 0 (gkpInit c3Cat.length)).parent.getD 2 none = some 0 ∧
    (gkpInner 1 c3Cat 0 (gkpInit c3Cat.length)).pdt.getD 2 ⊤ =
      (dtAbsSecs c3Cat 0 2 : WithTop ℚ) :=
  gkpInner_fresh 1 c3Cat c3_hit02 (gkpInit c3Cat.length) (by decide)
    (by decide) (List.length_replicate _ _) (List.length_replicate _ _)
    (List.length_replicate _ _)

theorem c3_S1_0 : gkpSlot 0 (gkpInner 1 c3Cat 0 (gkpInit c3Cat.length)) =
    gkpSlot 0 (gkpInit c3Cat.length) :=
  gkpInner_not_hit 1 c3Cat (fun hh => hh.1 rfl) _

theorem c3_S1_1 : gkpSlot 1 (gkpInner 1 c3Cat 0 (gkpInit c3Cat.length)) =
    gkpSlot 1 (gkpInit c3Cat.length) :=
  gkpInner_not_hit 1 c3Cat c3_nohit01 _

theorem c3_S2_2 :
    (gkpInner 1 c3Cat 1 (gkpInner 1 c3Cat 0 (gkpInit c3Cat.length))).dep.getD 2
      false = true ∧
    (gkpInner 1 c3Cat 1 (gkpInner 1 c3Cat 0 (gkpInit c3Cat.length))).parent.getD
      2 none = some 1 ∧
    (gkpInner 1 c3Cat 1 (gkpInner 1 c3Cat 0 (gkpInit c3Cat.length))).pdt.getD 2
      ⊤ = (dtAbsSecs c3Cat 1 2 : WithTop ℚ) := by
  refine gkpInner_reassign 1 c3Cat c3_hit12 _ c3_S1_2.1 (by decide) ?_
    c3_S1_len.2.1 c3_S1_len.2.2
  rw [c3_S1_2.2.2]
  rw [WithTop.coe_lt_coe, c3_d12, c3_d02]
  norm_num

theorem c3_final : gkpFinal 1 c3Cat =
    gkpInner 1 c3Cat 1 (gkpInner 1 c3Cat 0 (gkpInit c3Cat.length)) := by
  unfold gkpFinal
  rw [c3_idx]
  simp only [List.foldl_cons, List.foldl_nil]
  have hstep0 : gkpCandidate 1 c3Cat (gkpInit c3Cat.length) 0 =
      gkpInner 1 c3Cat 0 (gkpInit c3Cat.length) := by
    unfold gkpCandidate
    rw [if_neg (by decide)]
  have hdep1 : (gkpInner 1 c3Cat 0 (gkpInit c3Cat.length)).dep.getD 1 false =
      false := by
    rw [gkpSlot_dep c3_S1_1]
    decide
  have hstep1 : gkpCandidate 1 c3Cat
      (gkpInner 1 c3Cat 0 (gkpInit c3Cat.length)) 1 =
      gkpInner 1 c3Cat 1 (gkpInner 1 c3Cat 0 (gkpInit c3Cat.length)) := by
    unfold gkpCandidate
    rw [if_neg (by rw [hdep1]; exact (by decide))]
  have hstep2 : gkpCandidate 1 c3Cat
      (gkpInner 1 c3Cat 1 (gkpInner 1 c3Cat 0 (gkpInit c3Cat.length))) 2 =
      gkpInner 1 c3Cat 1 (gkpInner 1 c3Cat 0 (gkpInit c3Cat.length)) := by
    unfold gkpCandidate
    rw [if_pos c3_S2_2.1]
  rw [hstep0, hstep1, hstep2]

theorem c3_f0 : (gkpFinal 1 c3Cat).dep.getD 0 false = false := by
  rw [c3_final, gkpSlot_dep (gkpInner_not_hit 1 c3Cat c3_nohit10 _),
    gkpSlot_dep c3_S1_0]
  decide

theorem c3_f1 : (gkpFinal 1 c3Cat).dep.getD 1 false = false := by
  rw [c3_final, gkpSlot_dep (gkpInner_not_hit 1 c3Cat (fun hh => hh.1 rfl) _),
    gkpSlot_dep c3_S1_1]
  decide

theorem c3_f2 : (gkpFinal 1 c3Cat).dep.getD 2 false = true := by
  rw [c3_final]
  exact c3_S2_2.1

theorem c3_fp2 : (gkpFinal 1 c3Cat).parent.getD 2 none = some 1 := by
  rw [c3_final]
  exact c3_S2_2.2.1

end NornirUrd

namespace NornirUrd

theorem c3_outputs :
    (decluster_with_parents c3Cat 1).1 = [c3A, c3B] ∧
    (decluster_with_parents c3Cat 1).2 =
      [gkpAftershockAt c3Cat (gkpFinal 1 c3Cat) 2] := by
  unfold decluster_with_parents
  rw [show (c3Cat.isEmpty = false) from rfl]
  simp only [Bool.false_eq_true, if_false]
  rw [show c3Cat.enum = [(0, c3A), (1, c3B), (2, c3C)] from rfl]
  simp only [List.filter_cons, List.filter_nil, c3_f0, c3_f1, c3_f2]
  simp only [Bool.not_false, Bool.not_true, if_true, if_false]
  exact ⟨rfl, rfl⟩

/-- C3: in `decluster_with_parents`, an already dependent event hit by a
later candidate keeps its Aftershock class (dependence never reverts), and
its parent is reassigned to the new candidate exactly when the candidate is
temporally strictly closer than the recorded parent; in the concrete overlap
scenario (A: M7.0 at t=0, B: M6.8 at +1000 days, C smaller at +600 days,
inside both windows), C is output as the sole Aftershock with parent B and a
negative delta_t of -400 days. -/
theorem claim_C3 :
    (∀ (scale : ℚ) (l : List Event) (idx j : ℕ) (st : GKPState),
      st.dep.getD j false = true →
      (gkpInner scale l idx st).dep.getD j false = true) ∧
    (∀ (scale : ℚ) (l : List Event) (idx j : ℕ) (st : GKPState),
      gkpHit scale l idx j → st.dep.getD j false = true → j < l.length →
      st.parent.length = l.length → st.pdt.length = l.length →
      (((dtAbsSecs l idx j : WithTop ℚ) < st.pdt.getD j ⊤ →
        (gkpInner scale l idx st).parent.getD j none = some idx) ∧
       (¬ (dtAbsSecs l idx j : WithTop ℚ) < st.pdt.getD j ⊤ →
        (gkpInner scale l idx st).parent.getD j none =
          st.parent.getD j none))) ∧
    ((decluster_with_parents c3Cat 1).1 = [c3A, c3B] ∧
     (decluster_with_parents c3Cat 1).2.map Aftershock.event = [c3C] ∧
     (decluster_with_parents c3Cat 1).2.map Aftershock.parent_id =
       [c3B.usgs_id] ∧
     (decluster_with_parents c3Cat 1).2.map Aftershock.delta_t_sec =
       [-34560000] ∧
     (∀ a ∈ (decluster_with_parents c3Cat 1).2, a.delta_t_sec < 0)) := by
  refine ⟨?_, ?_, ?_, ?_, ?_, ?_, ?_⟩
  · intro scale l idx j st hd
    exact gkpInner_dep_true scale l idx j st hd
  · intro scale l idx j st hhit hd hj h2 h3
    constructor
    · intro hlt
      exact (gkpInner_reassign scale l hhit st hd hj hlt h2 h3).2.1
    · intro hge
      exact gkpSlot_parent (gkpInner_keep scale l idx j st hd hge)
  · exact c3_outputs.1
  · rw [c3_outputs.2]
    rfl
  · rw [c3_outputs.2]
    show [(evAt c3Cat ((((gkpFinal 1 c3Cat).parent.getD 2 none).getD 0))).usgs_id]
      = [c3B.usgs_id]
    rw [c3_fp2]
    rfl
  · rw [c3_outputs.2]
    show [dtSecs c3Cat (((gkpFinal 1 c3Cat).parent.getD 2 none).getD 0) 2] = _
    rw [c3_fp2]
    show [dtSecs c3Cat 1 2] = [(-34560000 : ℚ)]
    rw [c3_dts12]
  · rw [c3_outputs.2]
    intro a ha
    rcases List.mem_singleton.mp ha with rfl
    show dtSecs c3Cat (((gkpFinal 1 c3Cat).parent.getD 2 none).getD 0) 2 < 0
    rw [c3_fp2]
    show dtSecs c3Cat 1 2 < 0
    rw [c3_dts12]
    norm_num

/-- Concrete side state used by the C3 witness. -/
def c3St : GKPState := ⟨[false, false, true], [none, none, some 0],
  [⊤, ⊤, (51840000 : ℚ)]⟩

/-- C3 witness: the reassignment rule applied at the concrete scenario state
reached after candidate A's pass, with all hypotheses discharged. -/
theorem claim_C3_witness :
    gkpHit 1 c3Cat 1 2 ∧ c3St.dep.getD 2 false = true ∧ 2 < c3Cat.length ∧
    c3St.parent.length = c3Cat.length ∧ c3St.pdt.length = c3Cat.length ∧
    (dtAbsSecs c3Cat 1 2 : WithTop ℚ) < c3St.pdt.getD 2 ⊤ ∧
    (gkpInner 1 c3Cat 1 c3St).parent.getD 2 none = some 1 := by
  have hlt : (dtAbsSecs c3Cat 1 2 : WithTop ℚ) < c3St.pdt.getD 2 ⊤ := by
    rw [show c3St.pdt.getD 2 ⊤ = ((51840000 : ℚ) : WithTop ℚ) from rfl,
      WithTop.coe_lt_coe, c3_d12]
    norm_num
  exact ⟨c3_hit12, by decide, by decide, by decide, by decide, hlt,
    ((claim_C3.2.1 1 c3Cat 1 2 c3St c3_hit12 (by decide) (by decide)
      (by decide) (by decide)).1) hlt⟩

end NornirUrd

namespace NornirUrd

theorem mem_enum_fst_lt {α : Type} (l : List α) {q : ℕ × α} (hq : q ∈ l.enum) :
    q.1 < l.length := by
  rcases List.mem_iff_getElem.mp hq with ⟨k, hk, hget⟩
  have hk2 : k < l.length := by simpa [List.enum_length] using hk
  rw [List.getElem_enum] at hget
  rw [← hget]
  exact hk2

theorem rbBestStep_fst_lt (s : List Event) (rfact tau_min tau_max p xmeff : ℚ)
    (i : ℕ) (n : ℕ) (best : Option (ℕ × ℚ)) (cc : ℕ × Cluster)
    (hbest : ∀ v, best = some v → v.1 < n) (hcc : cc.1 < n) :
    ∀ v, rbBestStep s rfact tau_min tau_max p xmeff i best cc = some v →
      v.1 < n := by
  intro v hv
  unfold rbBestStep at hv
  dsimp only at hv
  split_ifs at hv
  · exact hbest v hv
  · exact hbest v hv
  · cases hb : best with
    | none =>
      rw [hb] at hv
      simp only at hv
      injection hv with hv2
      rw [← hv2]
      exact hcc
    | some b =>
      rw [hb] at hv
      simp only at hv
      split_ifs at hv
      · injection hv with hv2
        rw [← hv2]
        exact hcc
      · exact hbest v (hb.trans hv)

theorem rbFindBest_fst_lt (s : List Event) (rfact tau_min tau_max p xmeff : ℚ)
    (clusters : List Cluster) (i : ℕ) :
    ∀ v, rbFindBest s rfact tau_min tau_max p xmeff clusters i = some v →
      v.1 < clusters.length := by
  unfold rbFindBest
  have hgen : ∀ (L : List (ℕ × Cluster)), (∀ x ∈ L, x.1 < clusters.length) →
      ∀ (best : Option (ℕ × ℚ)), (∀ v, best = some v → v.1 < clusters.length) →
      ∀ v, L.foldl (rbBestStep s rfact tau_min tau_max p xmeff i) best = some v →
        v.1 < clusters.length := by
    intro L
    induction L with
    | nil => intro _ best hbest v hv; exact hbest v hv
    | cons a L ih =>
      intro hL best hbest v hv
      rw [List.foldl_cons] at hv
      exact ih (fun x hx => hL x (List.mem_cons_of_mem a hx)) _
        (rbBestStep_fst_lt s rfact tau_min tau_max p xmeff i clusters.length
          best a hbest (hL a (List.mem_cons_self a L))) v hv
  exact hgen clusters.enum (fun x hx => mem_enum_fst_lt clusters hx) none
    (fun v hv => absurd hv (by simp))

theorem rbDepUpdate_length (c : Cluster) (dep : List Bool) :
    (rbDepUpdate c dep).length = dep.length := by
  unfold rbDepUpdate
  split_ifs
  · rfl
  · exact List.length_mapIdx

theorem rbDepUpdate_getD_lt (c : Cluster) (dep : List Bool) {j : ℕ}
    (hj : j < dep.length) (hc : ¬ c.members.card = 1) :
    (rbDepUpdate c dep).getD j false =
      (if j ∈ c.members ∧ j ≠ c.main then true else dep.getD j false) := by
  unfold rbDepUpdate
  rw [if_neg hc]
  have hj2 : j < (List.mapIdx
      (fun si b => if si ∈ c.members ∧ si ≠ c.main then true else b) dep).length := by
    rw [List.length_mapIdx]
    exact hj
  rw [List.getD_eq_getElem?_getD, List.getElem?_eq_getElem hj2,
    List.getElem_mapIdx]
  rw [List.getD_eq_getElem?_getD, List.getElem?_eq_getElem hj]
  rfl

theorem rbDepUpdate_getD_true (c : Cluster) (dep : List Bool) (j : ℕ)
    (hd : dep.getD j false = true) :
    (rbDepUpdate c dep).getD j false = true := by
  have hj : j < dep.length := by
    by_contra hj
    rw [List.getD_eq_getElem?_getD, List.getElem?_eq_none (le_of_not_lt hj)]
      at hd
    exact absurd hd (by decide)
  by_cases h1 : c.members.card = 1
  · unfold rbDepUpdate
    rw [if_pos h1]
    exact hd
  · rw [rbDepUpdate_getD_lt c dep hj h1]
    split_ifs
    · rfl
    · exact hd

theorem rbDepUpdate_getD_skip (c : Cluster) (dep : List Bool) (j : ℕ)
    (h : ¬ (j ∈ c.members ∧ j ≠ c.main)) :
    (rbDepUpdate c dep).getD j false = dep.getD j false := by
  by_cases h1 : c.members.card = 1
  · unfold rbDepUpdate
    rw [if_pos h1]
  · by_cases hj : j < dep.length
    · rw [rbDepUpdate_getD_lt c dep hj h1, if_neg h]
    · rw [List.getD_eq_getElem?_getD, List.getElem?_eq_none (by
        rw [rbDepUpdate_length]
        exact le_of_not_lt hj), List.getD_eq_getElem?_getD,
        List.getElem?_eq_none (le_of_not_lt hj)]

theorem rbDepUpdate_getD_mark (c : Cluster) (dep : List Bool) {j : ℕ}
    (hj : j < dep.length) (hcard : ¬ c.members.card = 1)
    (hmem : j ∈ c.members) (hne : j ≠ c.main) :
    (rbDepUpdate c dep).getD j false = true := by
  rw [rbDepUpdate_getD_lt c dep hj hcard, if_pos ⟨hmem, hne⟩]

end NornirUrd

namespace NornirUrd

/-- Per-cluster invariant of the Reasenberg fold after admitting the first
`bound` sorted events: members are admitted events, `mmax` is the maximum
member magnitude, and `main` is the earliest-admitted member attaining it. -/
def RbClusterOk (s : List Event) (bound : ℕ) (c : Cluster) : Prop :=
  c.members.Nonempty ∧ (∀ m ∈ c.members, m < bound) ∧
  (∀ m ∈ c.members, magAt s m ≤ c.mmax) ∧
  c.main ∈ c.members ∧ magAt s c.main = c.mmax ∧
  (∀ m ∈ c.members, magAt s m = c.mmax → c.main ≤ m)

/-- Global invariant: every cluster is well formed and member sets are
pairwise disjoint. -/
def RbInv (s : List Event) (bound : ℕ) (clusters : List Cluster) : Prop :=
  (∀ c ∈ clusters, RbClusterOk s bound c) ∧
  List.Pairwise (fun c1 c2 => Disjoint c1.members c2.members) clusters

theorem RbClusterOk_mono (s : List Event) {b1 b2 : ℕ} (h : b1 ≤ b2)
    {c : Cluster} (hc : RbClusterOk s b1 c) : RbClusterOk s b2 c :=
  ⟨hc.1, fun m hm => lt_of_lt_of_le (hc.2.1 m hm) h, hc.2.2.1, hc.2.2.2.1,
    hc.2.2.2.2.1, hc.2.2.2.2.2⟩

theorem rbStep_inv (s : List Event) (rfact tau_min tau_max p xmeff : ℚ)
    (i : ℕ) (clusters : List Cluster)
    (h : RbInv s i clusters) :
    RbInv s (i + 1) (rbStep s rfact tau_min tau_max p xmeff clusters i) := by
  obtain ⟨hok, hdisj⟩ := h
  unfold rbStep
  cases hfb : rbFindBest s rfact tau_min tau_max p xmeff clusters i with
  | none =>
    simp only
    constructor
    · intro c hc
      rcases List.mem_append.mp hc with hold | hnew
      · exact RbClusterOk_mono s (Nat.le_succ i) (hok c hold)
      · rcases List.mem_singleton.mp hnew with rfl
        refine ⟨⟨i, Finset.mem_singleton_self i⟩, ?_, ?_, ?_, rfl, ?_⟩
        · intro m hm
          rw [Finset.mem_singleton.mp hm]
          exact Nat.lt_succ_self i
        · intro m hm
          rw [Finset.mem_singleton.mp hm]
        · exact Finset.mem_singleton_self i
        · intro m hm _
          rw [Finset.mem_singleton.mp hm]
    · rw [List.pairwise_append]
      refine ⟨hdisj, List.pairwise_singleton _ _, ?_⟩
      intro c1 hc1 c2 hc2
      rcases List.mem_singleton.mp hc2 with rfl
      simp only
      rw [Finset.disjoint_singleton_right]
      intro hmem
      exact absurd ((hok c1 hc1).2.1 i hmem) (lt_irrefl i)
  | some b =>
    simp only
    have hblt : b.1 < clusters.length :=
      rbFindBest_fst_lt s rfact tau_min tau_max p xmeff clusters i b hfb
    have hcold : clusters.getD b.1 dCluster = clusters[b.1] := by
      rw [List.getD_eq_getElem?_getD, List.getElem?_eq_getElem hblt]
      rfl
    have hcmem : clusters[b.1] ∈ clusters := List.getElem_mem hblt
    have hcok := hok _ hcmem
    have hfresh : ∀ c2 ∈ clusters, i ∉ c2.members := by
      intro c2 hc2 hmem
      exact absurd ((hok c2 hc2).2.1 i hmem) (lt_irrefl i)
    have hnewok : RbClusterOk s (i + 1)
        (if (clusters.getD b.1 dCluster).mmax < magAt s i then
          ⟨magAt s i, i, i, insert i (clusters.getD b.1 dCluster).members⟩
        else ⟨(clusters.getD b.1 dCluster).mmax,
          (clusters.getD b.1 dCluster).main, i,
          insert i (clusters.getD b.1 dCluster).members⟩) := by
      rw [hcold]
      obtain ⟨hne, hbd, hmax, hmainm, hmainv, hfirst⟩ := hcok
      split_ifs with hlt
      · refine ⟨⟨i, Finset.mem_insert_self i _⟩, ?_, ?_,
          Finset.mem_insert_self i _, rfl, ?_⟩
        · intro m hm
          rcases Finset.mem_insert.mp hm with rfl | hm2
          · exact Nat.lt_succ_self m
          · exact lt_of_lt_of_le (hbd m hm2) (Nat.le_succ i)
        · intro m hm
          rcases Finset.mem_insert.mp hm with rfl | hm2
          · exact le_refl _
          · exact le_of_lt (lt_of_le_of_lt (hmax m hm2) hlt)
        · intro m hm hv
          rcases Finset.mem_insert.mp hm with rfl | hm2
          · exact le_refl _
          · exact absurd hv (ne_of_lt (lt_of_le_of_lt (hmax m hm2) hlt))
      · refine ⟨⟨i, Finset.mem_insert_self i _⟩, ?_, ?_,
          Finset.mem_insert_of_mem hmainm, hmainv, ?_⟩
        · intro m hm
          rcases Finset.mem_insert.mp hm with rfl | hm2
          · exact Nat.lt_succ_self m
          · exact lt_of_lt_of_le (hbd m hm2) (Nat.le_succ i)
        · intro m hm
          rcases Finset.mem_insert.mp hm with rfl | hm2
          · exact le_of_not_lt hlt
          · exact hmax m hm2
        · intro m hm hv
          rcases Finset.mem_insert.mp hm with rfl | hm2
          · exact le_of_lt (hbd _ hmainm)
          · exact hfirst m hm2 hv
    constructor
    · intro c hc
      rcases List.mem_or_eq_of_mem_set hc with hold | rfl
      · exact RbClusterOk_mono s (Nat.le_succ i) (hok c hold)
      · exact hnewok
    · rw [List.pairwise_iff_getElem] at hdisj ⊢
      intro k1 k2 hk1 hk2 hklt
      have hk1o : k1 < clusters.length := by
        rw [List.length_set] at hk1
        exact hk1
      have hk2o : k2 < clusters.length := by
        rw [List.length_set] at hk2
        exact hk2
      have hsub : ∀ kk (hkk : kk < clusters.length)
          (hkk2 : kk < (clusters.set b.1 _).length),
          ((clusters.set b.1 (if (clusters.getD b.1 dCluster).mmax < magAt s i
            then ⟨magAt s i, i, i, insert i (clusters.getD b.1 dCluster).members⟩
            else ⟨(clusters.getD b.1 dCluster).mmax,
              (clusters.getD b.1 dCluster).main, i,
              insert i (clusters.getD b.1 dCluster).members⟩))[kk]).members ⊆
            insert i (clusters[kk]).members := by
        intro kk hkk hkk2
        by_cases hbk : b.1 = kk
        · subst hbk
          rw [List.getElem_set_self hkk2]
          rw [hcold]
          split_ifs
          · exact Finset.Subset.refl _
          · exact Finset.Subset.refl _
        · rw [List.getElem_set_ne hbk]
          exact Finset.subset_insert _ _
      have hd12 := hdisj k1 k2 hk1o hk2o hklt
      refine Finset.disjoint_left.mpr ?_
      intro a ha1 ha2
      have ha1b := hsub k1 hk1o hk1 ha1
      have ha2b := hsub k2 hk2o hk2 ha2
      rcases Finset.mem_insert.mp ha1b with rfl | ha1c
      · rcases Finset.mem_insert.mp ha2b with heq | ha2c
        · by_cases hbk1 : b.1 = k1
          · have hk2ne : b.1 ≠ k2 := by omega
            rw [List.getElem_set_ne hk2ne] at ha2
            exact hfresh _ (List.getElem_mem hk2o) ha2
          · rw [List.getElem_set_ne hbk1] at ha1
            exact hfresh _ (List.getElem_mem hk1o) ha1
        · by_cases hbk1 : b.1 = k1
          · have hk2ne : b.1 ≠ k2 := by omega
            rw [List.getElem_set_ne hk2ne] at ha2
            exact hfresh _ (List.getElem_mem hk2o) ha2
          · rw [List.getElem_set_ne hbk1] at ha1
            exact hfresh _ (List.getElem_mem hk1o) ha1
      · rcases Finset.mem_insert.mp ha2b with rfl | ha2c
        · by_cases hbk2 : b.1 = k2
          · have hk1ne : b.1 ≠ k1 := by omega
            rw [List.getElem_set_ne hk1ne] at ha1
            exact hfresh _ (List.getElem_mem hk1o) ha1
          · rw [List.getElem_set_ne hbk2] at ha2
            exact hfresh _ (List.getElem_mem hk2o) ha2
        · exact absurd ha2c (Finset.disjoint_left.mp hd12 ha1c)

end NornirUrd

namespace NornirUrd

theorem rbClusters_inv (events : List Event) (rfact tau_min tau_max p xmeff : ℚ) :
    RbInv (rbSorted events) (rbSorted events).length
      (rbClusters events rfact tau_min tau_max p xmeff) := by
  unfold rbClusters
  have hgen : ∀ k : ℕ, RbInv (rbSorted events) k
      ((List.range k).foldl
        (rbStep (rbSorted events) rfact tau_min tau_max p xmeff) []) := by
    intro k
    induction k with
    | zero => exact ⟨fun c hc => absurd hc (List.not_mem_nil c), List.Pairwise.nil⟩
    | succ k ih =>
      rw [List.range_succ, List.foldl_append, List.foldl_cons, List.foldl_nil]
      exact rbStep_inv (rbSorted events) rfact tau_min tau_max p xmeff k _ ih
  exact hgen (rbSorted events).length

theorem rbDepFold_skip (j : ℕ) :
    ∀ (L : List Cluster) (dep : List Bool),
      (∀ cc ∈ L, ¬ (j ∈ cc.members ∧ j ≠ cc.main)) →
      (L.foldl (fun d cc => rbDepUpdate cc d) dep).getD j false =
        dep.getD j false := by
  intro L
  induction L with
  | nil => intro dep _; rfl
  | cons a L ih =>
    intro dep hskip
    rw [List.foldl_cons,
      ih _ (fun cc hcc => hskip cc (List.mem_cons_of_mem a hcc)),
      rbDepUpdate_getD_skip a dep j (hskip a (List.mem_cons_self a L))]

theorem rbDepFold_true (j : ℕ) :
    ∀ (L : List Cluster) (dep : List Bool), dep.getD j false = true →
      (L.foldl (fun d cc => rbDepUpdate cc d) dep).getD j false = true := by
  intro L
  induction L with
  | nil => intro dep hd; exact hd
  | cons a L ih =>
    intro dep hd
    rw [List.foldl_cons]
    exact ih _ (rbDepUpdate_getD_true a dep j hd)

theorem rbDepFold_classify (n : ℕ) :
    ∀ (L : List Cluster) (dep : List Bool), dep.length = n →
      List.Pairwise (fun c1 c2 => Disjoint c1.members c2.members) L →
      ∀ c ∈ L, c.main ∈ c.members →
        (dep.getD c.main false = false →
          (L.foldl (fun d cc => rbDepUpdate cc d) dep).getD c.main false =
            false) ∧
        (∀ m ∈ c.members, m ≠ c.main → m < n → ¬ c.members.card = 1 →
          (L.foldl (fun d cc => rbDepUpdate cc d) dep).getD m false = true) := by
  intro L
  induction L with
  | nil => intro dep _ _ c hc; exact absurd hc (List.not_mem_nil c)
  | cons a L ih =>
    intro dep hlen hpw c hc hmain
    obtain ⟨hhead, htail⟩ := List.pairwise_cons.mp hpw
    rcases List.mem_cons.mp hc with rfl | hcL
    · constructor
      · intro hd
        rw [List.foldl_cons]
        rw [rbDepFold_skip c.main L _ (fun cc hcc => by
          intro hand
          exact absurd hand.1
            (Finset.disjoint_left.mp (hhead cc hcc) hmain))]
        rw [rbDepUpdate_getD_skip c dep c.main (fun hand => hand.2 rfl)]
        exact hd
      · intro m hm hne hmn hcard
        rw [List.foldl_cons]
        refine rbDepFold_true m L _ ?_
        exact rbDepUpdate_getD_mark c dep (hlen ▸ hmn) hcard hm hne
    · have hdisj := hhead c hcL
      constructor
      · intro hd
        rw [List.foldl_cons]
        refine (ih (rbDepUpdate a dep)
          (by rw [rbDepUpdate_length]; exact hlen) htail c hcL hmain).1 ?_
        rw [rbDepUpdate_getD_skip a dep c.main (fun hand =>
          absurd hand.1 (Finset.disjoint_right.mp hdisj hmain))]
        exact hd
      · intro m hm hne hmn hcard
        rw [List.foldl_cons]
        exact (ih (rbDepUpdate a dep)
          (by rw [rbDepUpdate_length]; exact hlen) htail c hcL hmain).2
          m hm hne hmn hcard

/-- C10: in `decluster_reasenberg`, every recorded cluster maximum equals
the maximum magnitude over the cluster's members, the recorded mainshock
candidate is the earliest-admitted member attaining that maximum (the
candidate changes only on a strict improvement), and in multi-member
clusters that candidate is the one classified as Mainshock while every
other member is classified dependent. -/
theorem claim_C10 (events : List Event) (rfact tau_min tau_max p xmeff : ℚ)
    (c : Cluster) (hc : c ∈ rbClusters events rfact tau_min tau_max p xmeff) :
    (∀ m ∈ c.members, magAt (rbSorted events) m ≤ c.mmax) ∧
    c.main ∈ c.members ∧ magAt (rbSorted events) c.main = c.mmax ∧
    (∀ m ∈ c.members, magAt (rbSorted events) m = c.mmax → c.main ≤ m) ∧
    (2 ≤ c.members.card →
      (rbDepFlags (rbSorted events).length
        (rbClusters events rfact tau_min tau_max p xmeff)).getD c.main false
        = false ∧
      ∀ m ∈ c.members, m ≠ c.main →
        (rbDepFlags (rbSorted events).length
          (rbClusters events rfact tau_min tau_max p xmeff)).getD m false
          = true) := by
  obtain ⟨hok, hpw⟩ := rbClusters_inv events rfact tau_min tau_max p xmeff
  obtain ⟨hne, hbd, hmax, hmainm, hmainv, hfirst⟩ := hok c hc
  refine ⟨hmax, hmainm, hmainv, hfirst, ?_⟩
  intro hcard
  have hcl := rbDepFold_classify (rbSorted events).length
    (rbClusters events rfact tau_min tau_max p xmeff)
    (List.replicate (rbSorted events).length false)
    (List.length_replicate _ _) hpw c hc hmainm
  constructor
  · exact hcl.1 getD_replicate_false
  · intro m hm hne2
    exact hcl.2 m hm hne2 (hbd m hm) (by omega)

end NornirUrd

namespace NornirUrd

/-- Two-event Reasenberg demonstration catalog: an M7 shock followed one
hour later by an M5 shock at the same location. -/
def rbwEv1 : Event := ⟨"rb-a", "2020-01-01T00:00:00Z", 10, 20, 7⟩

def rbwEv2 : Event := ⟨"rb-b", "2020-01-01T01:00:00Z", 10, 20, 5⟩

def rbwCat : List Event := [rbwEv1, rbwEv2]

theorem rbw_sorted : rbSorted rbwCat = rbwCat := by decide

theorem tauWin_ge_tmin (mmax xmeff p tau_min tau_max b : ℚ) :
    ((tau_min : ℚ) : ℝ) ≤ tauWin mmax xmeff p tau_min tau_max b := by
  unfold tauWin
  dsimp only
  split_ifs with h
  · exact le_refl _
  · exact le_max_left _ _

theorem rbw_dt : dtSecs rbwCat 0 1 = 3600 := by
  unfold dtSecs
  rw [show timeAt rbwCat 1 - timeAt rbwCat 0 = 3600000000 from by decide]
  norm_num

theorem rbw_findBest :
    rbFindBest rbwCat 10 1 10 0.95 1.5 [⟨7, 0, 0, {0}⟩] 1
      = some (0, dtSecs rbwCat 0 1 / 86400) := by
  have hc1 : ¬ ((tauWin 7 1.5 0.95 1 10 1 : ℝ)
      < ((dtSecs rbwCat 0 1 / 86400 : ℚ) : ℝ)) := by
    rw [rbw_dt]
    refine not_lt.mpr (le_trans ?_ (tauWin_ge_tmin 7 1.5 0.95 1 10 1))
    push_cast
    norm_num
  have hc2 : ¬ (r_int 7 10 < havAt rbwCat 1 0) := by
    have hz : havAt rbwCat 1 0 = 0 := haversine_km_self 10 20
    rw [hz]
    refine not_lt.mpr (le_of_lt ?_)
    unfold r_int
    exact mul_pos (by norm_num) (Real.rpow_pos_of_pos (by norm_num) _)
  unfold rbFindBest
  show rbBestStep rbwCat 10 1 10 0.95 1.5 1 none (0, ⟨7, 0, 0, {0}⟩)
      = some (0, dtSecs rbwCat 0 1 / 86400)
  unfold rbBestStep
  dsimp only
  rw [if_neg hc1, if_neg hc2]

theorem rbw_clusters :
    rbClusters rbwCat 10 1 10 0.95 1.5 = [⟨7, 0, 1, insert 1 {0}⟩] := by
  unfold rbClusters
  rw [rbw_sorted]
  show (List.range 2).foldl (rbStep rbwCat 10 1 10 0.95 1.5) [] = _
  rw [show List.range 2 = [0, 1] from rfl, List.foldl_cons, List.foldl_cons,
    List.foldl_nil]
  rw [show rbStep rbwCat 10 1 10 0.95 1.5 [] 0 = [⟨7, 0, 0, {0}⟩] from rfl]
  unfold rbStep
  rw [rbw_findBest]
  rfl

end NornirUrd

namespace NornirUrd

theorem claim_C10_witness :
    (⟨7, 0, 1, insert 1 {0}⟩ : Cluster) ∈ rbClusters rbwCat 10 1 10 0.95 1.5 ∧
    magAt (rbSorted rbwCat) 0 = 7 ∧
    (0 : ℕ) ∈ (insert 1 ({0} : Finset ℕ)) ∧
    2 ≤ (insert 1 ({0} : Finset ℕ)).card ∧
    (rbDepFlags (rbSorted rbwCat).length
      (rbClusters rbwCat 10 1 10 0.95 1.5)).getD 0 false = false ∧
    (rbDepFlags (rbSorted rbwCat).length
      (rbClusters rbwCat 10 1 10 0.95 1.5)).getD 1 false = true := by
  have hmem : (⟨7, 0, 1, insert 1 {0}⟩ : Cluster)
      ∈ rbClusters rbwCat 10 1 10 0.95 1.5 := by
    rw [rbw_clusters]
    exact List.mem_singleton.mpr rfl
  have h := claim_C10 rbwCat 10 1 10 0.95 1.5 ⟨7, 0, 1, insert 1 {0}⟩ hmem
  have h2 := h.2.2.2.2 (by decide)
  exact ⟨hmem, h.2.2.1, by decide, by decide, h2.1, h2.2 1 (by decide) (by decide)⟩

end NornirUrd
